import Mathlib

/-!
Shallow embedding of the 1CD low-level database driver (cache.h,
db_1c_8x.h / db_1cd_8x.cpp) and proofs about its specification.

Modelling conventions:
* machine integers are `Nat`; `std::size_t` overflow in `pages::view` is
  modelled with an explicit `% 2 ^ 64`;
* `std::vector` backing stores are `List`s; the FIFO write cursor
  (`next_item`, a vector iterator in the source) is the corresponding index,
  with `items.length` standing for `items.end()`;
* fallible operations return `Except`; reaching release-mode undefined
  behaviour (dereferencing an out-of-range vector iterator after the debug
  `assert` compiled out) is modelled by an outer `Option` returning `none`;
* the C++ member `in` of `cache::twoq` is a Lean keyword, so it is named
  `inq` here; everything else keeps the source's names.
-/

namespace cache

/-- `cache::fifo`: dense vector of key/value pairs plus a circular write
cursor.  `next_item` is the index of the vector slot the cursor points at;
`items.length` plays the role of `items.end()`. -/
structure fifo (κ ν : Type) where
  max_size : Nat
  items : List (κ × ν)
  next_item : Nat
deriving DecidableEq

/-- `cache::lru`: dense vector of key/value pairs, most recently used at the
back. -/
structure lru (κ ν : Type) where
  max_size : Nat
  items : List (κ × ν)
deriving DecidableEq

/-- `cache::twoq`: FIFO admission queue `in` (here `inq`), ghost FIFO `out`
(values are the placeholder `0`, the source stores `char`), LRU `main`. -/
structure twoq (κ ν : Type) where
  inq : fifo κ ν
  out : fifo κ Nat
  main : lru κ ν
deriving DecidableEq

variable {κ ν : Type} [DecidableEq κ]

/-- `fifo::fifo(size_)`: empty backing vector, cursor at `end()`. -/
def fifo.new (size : Nat) : fifo κ ν :=
  ⟨size, [], 0⟩

/-- `fifo::find`: linear scan from the front, non-mutating. -/
def fifo.find (c : fifo κ ν) (index : κ) : Option ν :=
  (c.items.find? (fun q => decide (q.1 = index))).map (fun q => q.2)

/-- `fifo::item_push`.  Under capacity: append and park the cursor at
`end()`.  Otherwise wrap the cursor, overwrite the slot under it (returning
the previous pair as evicted) and advance.  Result `none` models the
release-mode undefined behaviour of dereferencing `*next_item` when the
backing vector has no slot there (capacity 0). -/
def fifo.item_push (c : fifo κ ν) (v : κ × ν) :
    Option (Option (κ × ν) × fifo κ ν) :=
  if c.items.length < c.max_size then
    some (none, { c with items := c.items ++ [v], next_item := c.items.length + 1 })
  else
    let nxt := if c.next_item = c.items.length then 0 else c.next_item
    match c.items.get? nxt with
    | none => none
    | some prev =>
        some (some prev, { c with items := c.items.set nxt v, next_item := nxt + 1 })

/-- `fifo::push` delegates to `item_push`. -/
def fifo.push (c : fifo κ ν) (v : κ × ν) : Option (Option (κ × ν) × fifo κ ν) :=
  c.item_push v

/-- `fifo::clear`. -/
def fifo.clear (c : fifo κ ν) : fifo κ ν :=
  { c with items := [], next_item := 0 }

/-- Keys currently stored in a FIFO. -/
def fifo.keys (c : fifo κ ν) : List κ :=
  c.items.map Prod.fst

/-- Well-formedness of a FIFO state as maintained by the source: the vector
never exceeds its reserved capacity, the cursor is a valid iterator, and the
capacity respects the constructor's `assert(size_ >= 1)`. -/
def fifo.WF (c : fifo κ ν) : Prop :=
  c.items.length ≤ c.max_size ∧ c.next_item ≤ c.items.length ∧ 1 ≤ c.max_size

instance (c : fifo κ ν) : Decidable c.WF := by
  unfold fifo.WF; infer_instance

/-- `lru::lru(size_)`. -/
def lru.new (size : Nat) : lru κ ν :=
  ⟨size, []⟩

/-- The scan of `lru::find`: locate the first pair with the given key,
erase it and re-append it at the back (`item_move_top`), returning its
value together with the reordered vector. -/
def lru.scan (index : κ) : List (κ × ν) → Option (ν × List (κ × ν))
  | [] => none
  | q :: rest =>
    if q.1 = index then some (q.2, rest ++ [q])
    else
      match lru.scan index rest with
      | none => none
      | some (v, l2) => some (v, q :: l2)

/-- `lru::find`: on a hit the entry is moved to the top. -/
def lru.find (c : lru κ ν) (index : κ) : Option ν × lru κ ν :=
  match lru.scan index c.items with
  | none => (none, c)
  | some (v, items2) => (some v, { c with items := items2 })

/-- `lru::item_push`: append under capacity, otherwise evict the front.
Result `none` models dereferencing `*items.begin()` of an empty vector
(capacity 0, release mode). -/
def lru.item_push (c : lru κ ν) (v : κ × ν) :
    Option (Option (κ × ν) × lru κ ν) :=
  if c.items.length < c.max_size then
    some (none, { c with items := c.items ++ [v] })
  else
    match c.items with
    | [] => none
    | h :: t => some (some h, { c with items := t ++ [v] })

/-- `lru::push`. -/
def lru.push (c : lru κ ν) (v : κ × ν) : Option (Option (κ × ν) × lru κ ν) :=
  c.item_push v

/-- `lru::clear`. -/
def lru.clear (c : lru κ ν) : lru κ ν :=
  { c with items := [] }

/-- Keys currently stored in an LRU. -/
def lru.keys (c : lru κ ν) : List κ :=
  c.items.map Prod.fst

/-- Well-formedness of an LRU state. -/
def lru.WF (c : lru κ ν) : Prop :=
  c.items.length ≤ c.max_size ∧ 1 ≤ c.max_size

instance (c : lru κ ν) : Decidable c.WF := by
  unfold lru.WF; infer_instance

/-- `twoq::twoq(size_)`: sub-cache capacities `size/4`, `size/2`,
`size - size/4`. -/
def twoq.new (size : Nat) : twoq κ ν :=
  ⟨fifo.new (size / 4), fifo.new (size / 2), lru.new (size - size / 4)⟩

/-- `twoq::find`: probe `main` first (promoting on a hit), then `in`
(no promotion). -/
def twoq.find (c : twoq κ ν) (index : κ) : Option ν × twoq κ ν :=
  match c.main.find index with
  | (some v, m2) => (some v, { c with main := m2 })
  | (none, m2) => (c.inq.find index, { c with main := m2 })

/-- `twoq::push`: a key remembered by the ghost `out` queue goes to `main`;
anything else goes to `in`, and the key of whatever `in` evicts is recorded
in `out` (whose own eviction is discarded). -/
def twoq.push (c : twoq κ ν) (v : κ × ν) :
    Option (Option (κ × ν) × twoq κ ν) :=
  if (c.out.find v.1).isSome then
    match c.main.item_push v with
    | none => none
    | some (r, m2) => some (r, { c with main := m2 })
  else
    match c.inq.item_push v with
    | none => none
    | some (none, i2) => some (none, { c with inq := i2 })
    | some (some e, i2) =>
      match c.out.item_push (e.1, 0) with
      | none => none
      | some (_, o2) => some (some e, { c with inq := i2, out := o2 })

/-- `twoq::clear`. -/
def twoq.clear (c : twoq κ ν) : twoq κ ν :=
  ⟨c.inq.clear, c.out.clear, c.main.clear⟩

/-- The pairs currently cached with data: contents of `in` and `main`
(`out` stores ghost keys only). -/
def twoq.entries (c : twoq κ ν) : List (κ × ν) :=
  c.inq.items ++ c.main.items

/-- Well-formedness of a 2Q state: all three sub-caches well formed. -/
def twoq.WF (c : twoq κ ν) : Prop :=
  c.inq.WF ∧ c.out.WF ∧ c.main.WF

instance (c : twoq κ ν) : Decidable c.WF := by
  unfold twoq.WF; infer_instance

end cache

deriving instance DecidableEq for Except

namespace db_1c_8x

/-- `std::size_t` wrap-around modulus used by the overflow check in
`pages::view`. -/
def U64 : Nat := 2 ^ 64

/-- The mutable state of a `pages` object after a successful `open`:
header fields, the free pool of slot pointers (`cache_pool`, a stack at the
back), the slot contents (`cache_data`, here one page per slot index) and
the 2Q queue mapping page indices to slot pointers (`cache_queue`).
Slot pointers into `cache_data` are modelled as indices `0 .. cache_size`. -/
structure PagesState where
  page_size : Nat
  length : Nat
  cache_size : Nat
  pool : List Nat
  data : List (List Nat)
  queue : cache.twoq Nat Nat
deriving DecidableEq

namespace pages

/-- State produced by `pages::open` + `cache_init`: every slot in the free
pool (slot `cache_size` on top of the stack), empty queue, zeroed buffers. -/
def openedState (ps len cached : Nat) : PagesState :=
  { page_size := ps
    length := len
    cache_size := cached
    pool := List.range (cached + 1)
    data := List.replicate (cached + 1) []
    queue := cache.twoq.new cached }

/-- The page reader backed by a flat file image: reading page `i` yields the
`page_size` bytes at file position `page_size * i` (always succeeds, the
model of a readable file). -/
def mkFread (file : List Nat) (ps : Nat) : Nat → Option (List Nat) :=
  fun i => some ((file.drop (ps * i)).take ps)

/-- `pages::view(index_, count_, pos_)`.

Returns `none` for release-mode undefined behaviour (`*cache_pool.rbegin()`
on an empty pool, or a 2Q push into a zero-capacity sub-cache); otherwise
`some (st2, r)` where `st2` is the post-call state and `r` is either the
thrown exception (`Except.error ()`) or the `count_` bytes visible through
the returned pointer.  The file read is abstracted as `fread`; a failing
read (`fread index = none`) is the thrown file-error path.  On that path the
slot that was only *peeked* from the pool may hold partial data, which is
unobservable; the model leaves `data` unchanged there. -/
def view (st : PagesState) (fread : Nat → Option (List Nat))
    (index count pos : Nat) : Option (PagesState × Except Unit (List Nat)) :=
  if index = 0 ∨ st.length ≤ index then
    some (st, Except.error ())
  else if st.page_size ≤ pos ∨ st.page_size < (pos + count) % U64 ∨
      (pos + count) % U64 < pos then
    some (st, Except.error ())
  else
    match st.queue.find index with
    | (some slot, q2) =>
        some ({ st with queue := q2 },
          Except.ok (((st.data.getD slot []).drop pos).take count))
    | (none, q2) =>
        match st.pool.getLast? with
        | none => none
        | some slot =>
          match fread index with
          | none => some ({ st with queue := q2 }, Except.error ())
          | some page =>
            match cache.twoq.push q2 (index, slot) with
            | none => none
            | some (freed, q3) =>
              let pool2 :=
                match freed with
                | none => st.pool.dropLast
                | some e => st.pool.dropLast ++ [e.2]
              some ({ st with
                        data := st.data.set slot page
                        pool := pool2
                        queue := q3 },
                    Except.ok ((page.drop pos).take count))

/-- Run a sequence of `view` calls, collecting the returned byte views;
fails (`none`) if any call throws or hits undefined behaviour. -/
def viewSeq (fread : Nat → Option (List Nat)) :
    PagesState → List (Nat × Nat × Nat) → Option (PagesState × List (List Nat))
  | st, [] => some (st, [])
  | st, (i, c, p) :: rest =>
    match view st fread i c p with
    | some (st2, Except.ok bs) =>
      match viewSeq fread st2 rest with
      | some (st3, outs) => some (st3, bs :: outs)
      | none => none
    | _ => none

/-- `pages::errors` (open-time typed error codes; `none` is success and is
represented by `Except.ok`). -/
inductive errors
  | file_system
  | bad_file
  | version
deriving DecidableEq

end pages

/-- The fixed 24-byte database header (`db_hdr`). -/
structure DbHdr where
  sig : List Nat
  version : Nat
  length : Nat
  unknown : Nat
  page_size : Nat
deriving DecidableEq

/-- The signature bytes `"1CDBMSV8"`. -/
def SIG : List Nat := [0x31, 0x43, 0x44, 0x42, 0x4D, 0x53, 0x56, 0x38]

namespace pages

/-- The tail of `pages::open` after the version dispatch: `hdr1` is the
header with the effective page size (forced to 4096 for version
`0x000E0208` by the caller).  Validates the page size (new revision only)
and the file size, and returns the final header. -/
def open_checked (hdr1 : DbHdr) (fsize : Nat) : Except errors DbHdr :=
  if hdr1.version ≠ 0x000E0208 ∧
      hdr1.page_size ≠ 4096 ∧ hdr1.page_size ≠ 8192 ∧
      hdr1.page_size ≠ 16384 ∧ hdr1.page_size ≠ 32768 ∧
      hdr1.page_size ≠ 65536 then
    Except.error errors.bad_file
  else if fsize % hdr1.page_size ≠ 0 ∨ fsize / hdr1.page_size ≠ hdr1.length ∨
      hdr1.length = 0 then
    Except.error errors.bad_file
  else Except.ok hdr1

/-- `pages::open`, after the header has been read.  The input is `none`
when the file open or the 24-byte header read failed (the `file_system`
error path); otherwise the parsed header and the file size.  On success
the returned header carries the effective page size (forced to 4096 for
version `0x000E0208`).  The function is total: `open` reports through its
typed error and never throws.  (`open` is a Lean keyword, hence the
trailing underscore.) -/
def open_ (input : Option (DbHdr × Nat)) : Except errors DbHdr :=
  match input with
  | none => Except.error errors.file_system
  | some (hdr, fsize) =>
    if hdr.sig ≠ SIG then Except.error errors.bad_file
    else if hdr.version ≠ 0x000E0208 ∧ hdr.version ≠ 0x00080308 then
      Except.error errors.version
    else
      open_checked
        (if hdr.version = 0x000E0208 then { hdr with page_size := 4096 } else hdr)
        fsize

end pages

end db_1c_8x

namespace db_1c_8x

namespace field

/-- `field::ftype`: the closed set of column types (plus the `unknown`
default). -/
inductive ftype
  | unknown
  | binary
  | boolean
  | digit
  | str_fix
  | str_var
  | version
  | str_blob
  | bin_blob
  | datetime
deriving DecidableEq

/-- `field::fparams`. -/
structure fparams where
  name : String
  type : ftype
  null_exists : Bool
  length : Nat
  precision : Nat
  case_sens : Bool
deriving DecidableEq

/-- The per-type slot widths `field::X::size(length_)` dispatched by the
`switch` in `records::prepare_fields`; `sizeof(wchar_t) = 2` on the target
platform.  `none` is the `default:` branch (unknown type → throw). -/
def type_size : ftype → Nat → Option Nat
  | ftype.binary, l => some l
  | ftype.boolean, _ => some 1
  | ftype.digit, l => some ((l + 2) / 2)
  | ftype.str_fix, l => some (l * 2)
  | ftype.str_var, l => some (l * 2 + 2)
  | ftype.version, _ => some 16
  | ftype.str_blob, _ => some 8
  | ftype.bin_blob, _ => some 8
  | ftype.datetime, _ => some 7
  | ftype.unknown, _ => none

end field

namespace records

/-- `records::helper`: per-column layout data. -/
structure helper where
  params : field.fparams
  shift : Nat
  size : Nat
deriving DecidableEq

/-- The accumulating loop of `records::prepare_fields`: `shift` starts at 1
(tombstone byte) and grows by the column size (optional null byte plus slot
width); returns the helpers and the final `shift`. -/
def prepare_go : List field.fparams → Nat → Except String (List helper × Nat)
  | [], shift => Except.ok ([], shift)
  | p :: rest, shift =>
    match field.type_size p.type p.length with
    | none => Except.error "Unknown table field type in table record."
    | some ts =>
      let size := (if p.null_exists then 1 else 0) + ts
      match prepare_go rest (shift + size) with
      | Except.error e => Except.error e
      | Except.ok (hs, fin) => Except.ok (⟨p, shift, size⟩ :: hs, fin)

/-- `records::prepare_fields`: field-count limit, accumulate sizes, then pad
the stride up to `min_rec_size = 1 + sizeof(records::index_type) = 5`. -/
def prepare_fields (params : List field.fparams) :
    Except String (List helper × Nat) :=
  if 4294967295 < params.length then
    Except.error "Table fields count exceeds maximum allowed value."
  else
    match prepare_go params 1 with
    | Except.error e => Except.error e
    | Except.ok (hs, shift) => Except.ok (hs, if shift < 5 then 5 else shift)

/-- The record stride computed by `records::prepare_fields` (its return
value, used by the `records` constructor as the row width). -/
def record_stride (params : List field.fparams) : Except String Nat :=
  (prepare_fields params).map (fun q => q.2)

/-- The cursor state of a `records` object: column layout, the one-stride
row buffer, the record count, and the index of the last successfully read
row (`last_index`, `none` before the first successful `seek`). -/
structure RecState where
  fields : List helper
  record : List Nat
  records_count : Nat
  last_index : Option Nat
deriving DecidableEq

/-- The message of the exception thrown by `is_deleted` / `get_field` when
no row has been read yet (the source marks the check with an
`/// assert() ?` comment but ships a `throw`). -/
def use_before_seek_msg : String :=
  "Attempting to access a table entry before reading it."

/-- `records::is_deleted`: requires a prior successful seek (throws the
ordinary exception kind otherwise), then reports whether the tombstone byte
equals 1. -/
def is_deleted (st : RecState) : Except String Bool :=
  if st.last_index.isSome then Except.ok (decide (st.record.getD 0 0 = 1))
  else Except.error use_before_seek_msg

/-- `records::get_field<T>`: seek check (same exception as `is_deleted`),
then `fields.at` (out-of-range raises `std::out_of_range`, modelled with its
own message), declared-type check, and the raw field slice with the
null-flag byte honoured.  `Except.ok none` is the null-valued instance;
`Except.ok (some bytes)` is the payload handed to the `T` constructor.  The
debug `assert(!is_deleted())` compiles out in release builds, so the read
simply proceeds on a deleted row. -/
def get_field (st : RecState) (req : field.ftype) (index : Nat) :
    Except String (Option (List Nat)) :=
  if st.last_index.isSome then
    match st.fields.get? index with
    | none => Except.error "std::out_of_range"
    | some h =>
      if h.params.type ≠ req then
        Except.error "Attempting reads table field with wrong type."
      else
        let buff := (st.record.drop h.shift).take h.size
        if h.params.null_exists then
          if buff.getD 0 0 = 0 then Except.ok none
          else Except.ok (some (buff.drop 1))
        else Except.ok (some buff)
  else Except.error use_before_seek_msg

end records

namespace blob

/-- `blob_blk`: a 256-byte BLOB block. -/
structure blob_blk where
  nextblock : Nat
  length : Nat
  data : List Nat
deriving DecidableEq

/-- The error exits of `blob::get` (all thrown as the single exception
kind; the constructors name the message). -/
inductive err
  | bad_start_index
  | index_exceeds_object
  | bad_block_length
  | buffer_too_small
  | size_mismatch
  | loop_detected
  | fuel_wrap
deriving DecidableEq

/-- One execution of the `do`-loop body of `blob::get`.  `Sum.inl` is a
`return` or `throw`; `Sum.inr (next, acc2)` continues the chain.  The
destination capacity equals `size_` when `size_ ≠ 0` (the single `reserve`,
kept exact by the capacity check itself). -/
def getBody (blocks : List blob_blk) (size_ : Nat) (index : Nat)
    (acc : List Nat) : Except err (List Nat) ⊕ (Nat × List Nat) :=
  match blocks.get? index with
  | none => Sum.inl (Except.error err.index_exceeds_object)
  | some blk =>
    if 250 < blk.length ∨ (blk.length = 0 ∧ blk.nextblock ≠ 0) then
      Sum.inl (Except.error err.bad_block_length)
    else if size_ ≠ 0 ∧ size_ - acc.length < blk.length then
      Sum.inl (Except.error err.buffer_too_small)
    else
      let acc2 := acc ++ blk.data.take blk.length
      if blk.nextblock = 0 then
        if size_ ≠ 0 ∧ size_ ≠ acc2.length then
          Sum.inl (Except.error err.size_mismatch)
        else Sum.inl (Except.ok acc2)
      else Sum.inr (blk.nextblock, acc2)

/-- The `do … while (--loop_prot)` loop of `blob::get` with `fuel` the
remaining permitted body executions; returns the result together with the
number of body executions performed.  `fuel = 0` with a continuing body
models the 32-bit wrap of `--loop_prot` (unreachable: a zero-block object
exits the body through the index check). -/
def getLoop (blocks : List blob_blk) (size_ : Nat) :
    Nat → Nat → List Nat → Except err (List Nat) × Nat
  | fuel, index, acc =>
    match getBody blocks size_ index acc with
    | Sum.inl r => (r, 1)
    | Sum.inr (next, acc2) =>
      match fuel with
      | 0 => (Except.error err.fuel_wrap, 1)
      | Nat.succ f =>
        if f = 0 then (Except.error err.loop_detected, 1)
        else
          let q := getLoop blocks size_ f next acc2
          (q.1, q.2 + 1)

/-- `blob::get(index_, size_)` over an object holding `blocks.length`
256-byte blocks, plus the number of loop iterations performed. -/
def get (blocks : List blob_blk) (index : Nat) (size_ : Nat) :
    Except err (List Nat) × Nat :=
  if index = 0 then (Except.error err.bad_start_index, 0)
  else getLoop blocks size_ blocks.length index []

/-- A `nextblock` chain starting at `index` reaches a terminating block
(`nextblock = 0`) within `fuel` steps. -/
def chainTerm (blocks : List blob_blk) : Nat → Nat → Bool
  | 0, _ => false
  | Nat.succ f, index =>
    match blocks.get? index with
    | none => false
    | some blk => blk.nextblock = 0 || chainTerm blocks f blk.nextblock

end blob

namespace blob_base

/-- Results of the collaborator `inflate` call. -/
inductive zres
  | stream_end
  | z_ok
  | z_err
deriving DecidableEq

/-- The external zlib collaborator (raw-DEFLATE inflate): an abstract
internal state (a `Nat`), the `inflateInit2` and `inflateEnd` outcomes, and
one `inflate` step mapping (state, avail_in, avail_out) to (result, new
state, bytes consumed, bytes produced). -/
structure zlib where
  initOk : Bool
  endOk : Nat → Bool
  step : Nat → Nat → Nat → zres × Nat × Nat × List Nat

/-- The error exits of `blob_base::decompress`. -/
inductive derr
  | input_too_large
  | zlib_error
  | output_too_large
  | premature_end
  | fuel_out
deriving DecidableEq

/-- The `do … while (strm.avail_in != 0)` loop of `decompress`: inflate,
return on `Z_STREAM_END`, re-synchronise `avail_in` from `total_in`, check
and grow the output buffer (doubling, or by the remaining headroom when
that is smaller), and exit the loop — into the premature-end throw — once
all input is consumed.  `dsz` is `dst.size()`; `fuel_out` is unreachable
for the fuel supplied by `decompress` since `dsz` grows every iteration. -/
def decompressLoop (z : zlib) (srcLen maxSize : Nat) :
    Nat → Nat → Nat → Nat → Nat → List Nat → Except derr (List Nat)
  | 0, _, _, _, _, _ => Except.error derr.fuel_out
  | Nat.succ f, σ, tin, tout, dsz, acc =>
    match z.step σ (srcLen - tin) (dsz - tout) with
    | (zres.stream_end, σ2, _, out) =>
      if z.endOk σ2 then Except.ok (acc ++ out) else Except.error derr.zlib_error
    | (zres.z_err, _, _, _) => Except.error derr.zlib_error
    | (zres.z_ok, σ2, consumed, out) =>
      let tin2 := tin + consumed
      let tout2 := tout + out.length
      if maxSize ≤ dsz then Except.error derr.output_too_large
      else
        let inc := maxSize - dsz
        let dsz2 := if inc < dsz then dsz + inc else dsz * 2
        if srcLen - tin2 = 0 then Except.error derr.premature_end
        else decompressLoop z srcLen maxSize f σ2 tin2 tout2 dsz2 (acc ++ out)

/-- `blob_base::decompress(src_, max_size_)`: empty input returns an empty
buffer immediately; `max_size_` is clamped to the zlib `uInt` limit; input
larger than the limit throws; then the inflate loop runs with the output
buffer initially sized to the input. -/
def decompress (z : zlib) (src : List Nat) (maxSize : Nat) :
    Except derr (List Nat) :=
  if src.length = 0 then Except.ok []
  else
    let maxSize := min maxSize 4294967295
    if maxSize < src.length then Except.error derr.input_too_large
    else if z.initOk then
      decompressLoop z src.length maxSize (maxSize + 2) 0 0 0 src.length []
    else Except.error derr.zlib_error

end blob_base

/-- Modelled from the spec: the per-type slot widths exactly as the claim's
§4.6 table states them, including `⌈(length + 2) / 2⌉` for `digit`.  Used
only to compare the claimed stride formula with the code. -/
def claim_slot_width : field.ftype → Nat → Nat
  | field.ftype.binary, l => l
  | field.ftype.boolean, _ => 1
  | field.ftype.digit, l => (l + 2 + 1) / 2
  | field.ftype.str_fix, l => l * 2
  | field.ftype.str_var, l => l * 2 + 2
  | field.ftype.version, _ => 16
  | field.ftype.str_blob, _ => 8
  | field.ftype.bin_blob, _ => 8
  | field.ftype.datetime, _ => 7
  | field.ftype.unknown, _ => 0

/-- Modelled from the spec: the record stride as the claim states it —
tombstone byte plus per-column (null byte + §4.6 slot width), padded up to
`1 + 4` bytes. -/
def claim_record_stride (params : List field.fparams) : Nat :=
  let s := 1 + (params.map (fun p =>
    (if p.null_exists then 1 else 0) + claim_slot_width p.type p.length)).sum
  if s < 5 then 5 else s

/-- The amended slot-width table: identical to the claim's table except
that the `digit` width is the integer (floor) division `(length + 2) / 2`
actually computed by `field::digit::size`. -/
def amended_slot_width : field.ftype → Nat → Nat
  | field.ftype.digit, l => (l + 2) / 2
  | t, l => claim_slot_width t l

/-- The amended stride formula: tombstone byte plus per-column (null byte +
amended slot width), padded up to `1 + 4` bytes. -/
def amended_record_stride (params : List field.fparams) : Nat :=
  let s := 1 + (params.map (fun p =>
    (if p.null_exists then 1 else 0) + amended_slot_width p.type p.length)).sum
  if s < 5 then 5 else s

end db_1c_8x

namespace db_1c_8x

/-- The slot-count/partition invariant of a `pages` state, together with
the structural well-formedness the source maintains: the queue's sub-caches
are well formed, the `in`/`main` capacities sum to the configured cache
size, the pool entries and the slots held by the queue together are exactly
the `cache_size + 1` pool slots (each held once), the buffer has one page
per slot, and the page size is a `std::size_t` value. -/
def PagesInv (st : PagesState) : Prop :=
  st.queue.WF ∧
  st.queue.inq.max_size + st.queue.main.max_size = st.cache_size ∧
  ((st.pool ++ st.queue.entries.map Prod.snd : List Nat) : Multiset Nat) =
    (List.range (st.cache_size + 1) : Multiset Nat) ∧
  st.data.length = st.cache_size + 1 ∧
  st.page_size < U64

instance (st : PagesState) : Decidable (PagesInv st) := by
  unfold PagesInv; infer_instance

/-- Every page cached by the queue holds exactly the file's bytes for its
page index: the cache is coherent with the file image. -/
def CacheGood (st : PagesState) (file : List Nat) : Prop :=
  ∀ e ∈ st.queue.entries,
    st.data.getD e.2 [] = (file.drop (st.page_size * e.1)).take st.page_size

instance (st : PagesState) (file : List Nat) : Decidable (CacheGood st file) := by
  unfold CacheGood; infer_instance

end db_1c_8x

namespace cache

/-- A capacity-8 2Q state reached from `twoq.new 8` by pushing keys 10, 11,
12 (`in` capacity 2: the third push wraps the cursor, evicts key 10 to
`out`, and leaves the cursor over the slot holding key 12). -/
def twoqB3 : twoq Nat Nat :=
  ⟨⟨2, [(12, 1), (11, 2)], 1⟩, ⟨4, [(10, 0)], 1⟩, ⟨6, []⟩⟩

/-- The state after additionally pushing `(12, 5)` into `twoqB3`: the
cursor slot held key 11, so the cache now holds key 12 twice, the stale
`(12, 1)` in front of the fresh `(12, 5)`. -/
def twoqB4 : twoq Nat Nat :=
  ⟨⟨2, [(12, 1), (12, 5)], 2⟩, ⟨4, [(10, 0), (11, 0)], 2⟩, ⟨6, []⟩⟩

end cache

namespace db_1c_8x

/-- A fresh `records` cursor: no successful `seek` has happened yet. -/
def recsFresh : records.RecState :=
  ⟨[], [], 4, none⟩

/-- A three-block BLOB object whose blocks 1 and 2 link to each other: a
cyclic `nextblock` chain (block 0 is unreachable — index 0 terminates a
chain). -/
def cycBlocks : List blob.blob_blk :=
  [⟨0, 0, []⟩, ⟨2, 1, [7]⟩, ⟨1, 1, [8]⟩]

/-- A degenerate inflate collaborator that consumes all input, produces
nothing and keeps reporting `Z_OK`: drives `decompress` into the
premature-end throw on any non-empty input. -/
def zlibStall : blob_base.zlib :=
  ⟨true, fun _ => true, fun σ availIn _ => (blob_base.zres.z_ok, σ, availIn, [])⟩

end db_1c_8x

namespace cache

variable {κ ν : Type} [DecidableEq κ]

theorem fifo.find_some_mem {c : fifo κ ν} {k : κ} {v : ν}
    (h : c.find k = some v) : (k, v) ∈ c.items := by
  unfold fifo.find at h
  rcases Option.map_eq_some'.1 h with ⟨a, ha, hv⟩
  have hk : a.1 = k := of_decide_eq_true (List.find?_some (p := fun q : κ × ν => decide (q.1 = k)) ha)
  have hm : a ∈ c.items := List.mem_of_find?_eq_some ha
  have hae : a = (k, v) := by
    cases a
    simp_all
  rwa [hae] at hm

theorem fifo.find_eq_none {c : fifo κ ν} {k : κ} :
    c.find k = none ↔ k ∉ c.keys := by
  unfold fifo.find fifo.keys
  rw [Option.map_eq_none', List.find?_eq_none]
  constructor
  · intro h hk
    rcases List.mem_map.1 hk with ⟨a, ham, hak⟩
    exact h a ham (by simp [hak])
  · intro h a ham hdec
    exact h (List.mem_map.2 ⟨a, ham, of_decide_eq_true hdec⟩)

end cache

theorem list_set_multiset {α : Type} {l : List α} {n : Nat} {e a : α}
    (hn : l.get? n = some e) :
    ((l.set n a : List α) : Multiset α) + {e} = a ::ₘ (l : Multiset α) := by
  induction l generalizing n with
  | nil => simp at hn
  | cons h t ih =>
    cases n with
    | zero =>
      simp only [List.get?] at hn
      cases hn
      simp only [List.set]
      rw [← Multiset.cons_coe, ← Multiset.cons_coe, Multiset.cons_add,
        add_comm ((t : Multiset α)) {e}, Multiset.singleton_add]
    | succ m =>
      simp only [List.get?] at hn
      simp only [List.set]
      rw [← Multiset.cons_coe, ← Multiset.cons_coe, Multiset.cons_add, ih hn,
        Multiset.cons_swap]

namespace cache

variable {κ ν : Type} [DecidableEq κ]

theorem fifo.not_mem_keys {c : fifo κ ν} {k : κ} :
    k ∉ c.keys ↔ ∀ q ∈ c.items, q.1 ≠ k := by
  constructor
  · intro h q hq hk
    exact h (List.mem_map.2 ⟨q, hq, hk⟩)
  · intro h hm
    rcases List.mem_map.1 hm with ⟨q, hq, hk⟩
    exact h q hq hk

theorem fifo.item_push_total {c : fifo κ ν} (v : κ × ν) (hwf : c.WF) :
    (c.item_push v).isSome := by
  obtain ⟨hlen, hnext, hmax⟩ := hwf
  unfold fifo.item_push
  split
  · rfl
  · rename_i hge
    have hlm : c.items.length = c.max_size := le_antisymm hlen (not_lt.1 hge)
    have hlt : (if c.next_item = c.items.length then 0 else c.next_item) <
        c.items.length := by
      split
      · omega
      · rename_i hne
        omega
    simp only [List.get?_eq_get hlt]
    rfl

theorem fifo.item_push_spec {c : fifo κ ν} {v : κ × ν}
    {r : Option (κ × ν)} {c2 : fifo κ ν}
    (hwf : c.WF) (h : c.item_push v = some (r, c2)) :
    c2.max_size = c.max_size ∧ c2.WF ∧ v ∈ c2.items ∧
    ((r = none ∧ c2.items = c.items ++ [v] ∧
        c2.items.length = c.items.length + 1) ∨
      (∃ e, r = some e ∧ e ∈ c.items ∧
        ((c2.items : List (κ × ν)) : Multiset (κ × ν)) + {e} =
          v ::ₘ (c.items : Multiset (κ × ν)) ∧
        c2.items.length = c.items.length)) := by
  obtain ⟨hlen, hnext, hmax⟩ := hwf
  unfold fifo.item_push at h
  split at h
  · rename_i hlt
    cases h
    refine ⟨rfl, ⟨by simpa using hlt, by simp, hmax⟩, by simp, Or.inl ⟨rfl, rfl, by simp⟩⟩
  · rename_i hge
    dsimp only at h
    split at h
    · exact absurd h (by simp)
    · rename_i prev hget
      cases h
      have hlt : (if c.next_item = c.items.length then 0 else c.next_item) <
          c.items.length := by
        rcases List.get?_eq_some.1 hget with ⟨hl, _⟩
        exact hl
      refine ⟨rfl, ⟨by simpa using hlen, by simpa using hlt, hmax⟩,
        List.mem_set c.items _ hlt v,
        Or.inr ⟨prev, rfl, List.get?_mem hget, list_set_multiset hget, by simp⟩⟩

end cache

namespace cache

variable {κ ν : Type} [DecidableEq κ]

theorem find_key_append_last {l : List (κ × ν)} {k : κ} {x : ν}
    (hk : ∀ q ∈ l, q.1 ≠ k) :
    (l ++ [(k, x)]).find? (fun q => decide (q.1 = k)) = some (k, x) := by
  induction l with
  | nil => simp
  | cons q t ih =>
    have hq : q.1 ≠ k := hk q (by simp)
    rw [List.cons_append, List.find?_cons_of_neg _ (by simp [hq])]
    exact ih (fun p hp => hk p (by simp [hp]))

theorem find_key_set {l : List (κ × ν)} {n : Nat} {k : κ} {x : ν}
    (hk : ∀ q ∈ l, q.1 ≠ k) (hn : n < l.length) :
    (l.set n (k, x)).find? (fun q => decide (q.1 = k)) = some (k, x) := by
  induction l generalizing n with
  | nil => simp at hn
  | cons q t ih =>
    cases n with
    | zero =>
      simp only [List.set]
      rw [List.find?_cons_of_pos _ (by simp)]
    | succ m =>
      have hq : q.1 ≠ k := hk q (by simp)
      simp only [List.set]
      rw [List.find?_cons_of_neg _ (by simp [hq])]
      exact ih (fun p hp => hk p (by simp [hp])) (by simpa using hn)

theorem fifo.push_fresh_find {c : fifo κ ν} {k : κ} {x : ν}
    {r : Option (κ × ν)} {c2 : fifo κ ν}
    (hwf : c.WF) (h : c.item_push (k, x) = some (r, c2)) (hk : k ∉ c.keys) :
    c2.find k = some x := by
  have hall : ∀ q ∈ c.items, q.1 ≠ k := fifo.not_mem_keys.1 hk
  obtain ⟨hlen, hnext, hmax⟩ := hwf
  unfold fifo.item_push at h
  unfold fifo.find
  split at h
  · cases h
    simp only
    rw [find_key_append_last hall]
    rfl
  · dsimp only at h
    split at h
    · exact absurd h (by simp)
    · rename_i prev hget
      cases h
      simp only
      rw [find_key_set hall (List.get?_eq_some.1 hget).1]
      rfl

end cache

namespace cache

variable {κ ν : Type} [DecidableEq κ]

theorem lru.not_mem_keys_iff {c : lru κ ν} {k : κ} :
    k ∉ c.keys ↔ ∀ q ∈ c.items, q.1 ≠ k := by
  constructor
  · intro h q hq hk
    exact h (List.mem_map.2 ⟨q, hq, hk⟩)
  · intro h hm
    rcases List.mem_map.1 hm with ⟨q, hq, hk⟩
    exact h q hq hk

theorem lru.scan_eq_none {k : κ} {l : List (κ × ν)} :
    lru.scan k l = none ↔ ∀ q ∈ l, q.1 ≠ k := by
  induction l with
  | nil => simp [lru.scan]
  | cons q t ih =>
    unfold lru.scan
    by_cases hq : q.1 = k
    · rw [if_pos hq]
      simp [hq]
    · rw [if_neg hq]
      cases hscan : lru.scan k t with
      | none =>
        simp only
        constructor
        · intro _ p hp
          rcases List.mem_cons.1 hp with h1 | h2
          · rw [h1]; exact hq
          · exact (ih.1 hscan) p h2
        · intro _; trivial
      | some w =>
        rcases w with ⟨v, l2⟩
        simp only
        constructor
        · intro hcon
          exact absurd hcon (by simp)
        · intro hall
          have := (ih.2 (fun p hp => hall p (List.mem_cons_of_mem _ hp)))
          rw [this] at hscan
          exact absurd hscan (by simp)

theorem lru.scan_eq_some {k : κ} {v : ν} {l l2 : List (κ × ν)}
    (h : lru.scan k l = some (v, l2)) :
    (k, v) ∈ l ∧ ((l2 : List (κ × ν)) : Multiset (κ × ν)) = (l : Multiset (κ × ν)) ∧
      l2.length = l.length := by
  induction l generalizing l2 with
  | nil => simp [lru.scan] at h
  | cons q t ih =>
    unfold lru.scan at h
    by_cases hq : q.1 = k
    · rw [if_pos hq] at h
      injection h with h1
      injection h1 with hv hl
      subst hv hl
      refine ⟨by rw [← hq]; simp, ?_, by simp⟩
      exact Multiset.coe_eq_coe.2 (List.perm_append_singleton q t)
    · rw [if_neg hq] at h
      cases hscan : lru.scan k t with
      | none => rw [hscan] at h; exact absurd h (by simp)
      | some w =>
        rcases w with ⟨v2, t2⟩
        rw [hscan] at h
        simp only at h
        injection h with h1
        injection h1 with hv hl
        subst hv
        rcases ih hscan with ⟨hmem, hms, hlen⟩
        subst hl
        refine ⟨List.mem_cons_of_mem _ hmem, ?_, by simpa using hlen⟩
        rw [← Multiset.cons_coe, ← Multiset.cons_coe, Multiset.cons_inj_right]
        exact hms

theorem lru.scan_append_fresh {k : κ} {x : ν} {l : List (κ × ν)}
    (hk : ∀ q ∈ l, q.1 ≠ k) :
    ∃ l2, lru.scan k (l ++ [(k, x)]) = some (x, l2) := by
  induction l with
  | nil => exact ⟨[(k, x)], by simp [lru.scan]⟩
  | cons q t ih =>
    rcases ih (fun p hp => hk p (List.mem_cons_of_mem _ hp)) with ⟨l2, hl2⟩
    refine ⟨q :: l2, ?_⟩
    rw [List.cons_append]
    unfold lru.scan
    rw [if_neg (hk q (by simp)), hl2]

theorem lru.item_push_isSome {c : lru κ ν} (v : κ × ν) (hwf : c.WF) :
    (c.item_push v).isSome := by
  obtain ⟨hlen, hmax⟩ := hwf
  unfold lru.item_push
  split
  · rfl
  · rename_i hge
    cases hitems : c.items with
    | nil => rw [hitems] at hge; simp at hge; omega
    | cons h t => rfl

theorem lru.item_push_cases {c : lru κ ν} {v : κ × ν}
    {r : Option (κ × ν)} {c2 : lru κ ν}
    (hwf : c.WF) (h : c.item_push v = some (r, c2)) :
    c2.max_size = c.max_size ∧ c2.WF ∧
    ((r = none ∧ c2.items = c.items ++ [v] ∧
        c2.items.length = c.items.length + 1) ∨
      (∃ e t, r = some e ∧ c.items = e :: t ∧ c2.items = t ++ [v] ∧
        c2.items.length = c.items.length)) := by
  obtain ⟨hlen, hmax⟩ := hwf
  unfold lru.item_push at h
  split at h
  · rename_i hlt
    cases h
    exact ⟨rfl, ⟨by simpa using hlt, hmax⟩, Or.inl ⟨rfl, rfl, by simp⟩⟩
  · rename_i hge
    split at h
    · exact absurd h (by simp)
    · rename_i e t hitems
      cases h
      refine ⟨rfl, ⟨?_, hmax⟩, Or.inr ⟨e, t, rfl, hitems, rfl, by simp [hitems]⟩⟩
      simp only [List.length_append]
      rw [hitems] at hlen
      simp at hlen
      simpa using Nat.le_of_succ_le_succ (Nat.succ_le_of_lt (Nat.lt_succ_of_le hlen))

end cache

theorem list_coe_append {α : Type} (l l2 : List α) :
    ((l ++ l2 : List α) : Multiset α) = (l : Multiset α) + (l2 : Multiset α) :=
  (Multiset.coe_add l l2).symm

namespace cache

variable {κ ν : Type} [DecidableEq κ]

theorem twoq.find_none_frozen {c : twoq κ ν} {k : κ} {c2 : twoq κ ν}
    (h : c.find k = (none, c2)) : c2 = c := by
  unfold twoq.find at h
  unfold lru.find at h
  cases hscan : lru.scan k c.main.items with
  | none =>
    rw [hscan] at h
    simp only at h
    have hc2 := congrArg Prod.snd h
    simp only at hc2
    rw [← hc2]
  | some w =>
    rcases w with ⟨v, l2⟩
    rw [hscan] at h
    simp only at h
    have := congrArg Prod.fst h
    simp at this

theorem twoq.find_eq_some {c : twoq κ ν} {k : κ} {v : ν} {c2 : twoq κ ν}
    (h : c.find k = (some v, c2)) :
    (k, v) ∈ c.entries ∧
    ((c2.entries : List (κ × ν)) : Multiset (κ × ν)) = (c.entries : Multiset (κ × ν)) ∧
    c2.entries.length = c.entries.length ∧
    c2.inq = c.inq ∧ c2.out = c.out ∧
    c2.main.max_size = c.main.max_size ∧
    c2.main.items.length = c.main.items.length := by
  unfold twoq.find at h
  unfold lru.find at h
  cases hscan : lru.scan k c.main.items with
  | none =>
    rw [hscan] at h
    simp only at h
    have hfind : c.inq.find k = some v := by
      have := congrArg Prod.fst h
      simpa using this
    have hc2 : c2 = { c with main := c.main } := by
      have := congrArg Prod.snd h
      simpa using this.symm
    have hmem : (k, v) ∈ c.inq.items := fifo.find_some_mem hfind
    rw [hc2]
    exact ⟨List.mem_append.2 (Or.inl hmem), rfl, rfl, rfl, rfl, rfl, rfl⟩
  | some w =>
    rcases w with ⟨v2, l2⟩
    rw [hscan] at h
    simp only at h
    have hv : v2 = v := by
      have := congrArg Prod.fst h
      simpa using this
    have hc2 : c2 = { c with main := { c.main with items := l2 } } := by
      have := congrArg Prod.snd h
      simpa using this.symm
    subst hv
    rcases lru.scan_eq_some hscan with ⟨hmem, hms, hlen⟩
    rw [hc2]
    refine ⟨List.mem_append.2 (Or.inr hmem), ?_, ?_, rfl, rfl, rfl, hlen⟩
    · unfold twoq.entries
      simp only [list_coe_append, hms]
    · unfold twoq.entries
      simp only [List.length_append]
      omega

theorem twoq.push_total {c : twoq κ ν} (v : κ × ν) (hwf : c.WF) :
    (c.push v).isSome := by
  obtain ⟨hin, hout, hmain⟩ := hwf
  unfold twoq.push
  split
  · cases hp : c.main.item_push v with
    | none =>
      have := lru.item_push_isSome v hmain
      rw [hp] at this
      simp at this
    | some w =>
      rcases w with ⟨r, m2⟩
      rfl
  · cases hp : c.inq.item_push v with
    | none =>
      have := fifo.item_push_total v hin
      rw [hp] at this
      simp at this
    | some w =>
      rcases w with ⟨r, i2⟩
      cases r with
      | none => rfl
      | some e =>
        cases hq : c.out.item_push (e.1, 0) with
        | none =>
          have := fifo.item_push_total (e.1, 0) hout
          rw [hq] at this
          simp at this
        | some w2 =>
          rcases w2 with ⟨r2, o2⟩
          simp only [hq]
          rfl

theorem twoq.push_spec {c : twoq κ ν} {v : κ × ν}
    {r : Option (κ × ν)} {c2 : twoq κ ν}
    (hwf : c.WF) (h : c.push v = some (r, c2)) :
    c2.WF ∧ c2.inq.max_size = c.inq.max_size ∧
    c2.out.max_size = c.out.max_size ∧ c2.main.max_size = c.main.max_size ∧
    ((r = none ∧
        ((c2.entries : List (κ × ν)) : Multiset (κ × ν)) =
          v ::ₘ (c.entries : Multiset (κ × ν)) ∧
        c2.entries.length = c.entries.length + 1) ∨
      (∃ e, r = some e ∧ e ∈ c.entries ∧
        ((c2.entries : List (κ × ν)) : Multiset (κ × ν)) + {e} =
          v ::ₘ (c.entries : Multiset (κ × ν)) ∧
        c2.entries.length = c.entries.length)) := by
  obtain ⟨hin, hout, hmain⟩ := hwf
  unfold twoq.push at h
  split at h
  · cases hp : c.main.item_push v with
    | none => rw [hp] at h; exact absurd h (by simp)
    | some w =>
      rcases w with ⟨r0, m2⟩
      rw [hp] at h
      simp only at h
      cases h
      rcases lru.item_push_cases ⟨hmain.1, hmain.2⟩ hp with ⟨hmax, hwf2, hcase⟩
      refine ⟨⟨hin, hout, hwf2⟩, rfl, rfl, hmax, ?_⟩
      unfold twoq.entries
      rcases hcase with ⟨hr, hitems, hlen⟩ | ⟨e, t, hr, hct, hitems, hlen⟩
      · refine Or.inl ⟨hr, ?_, by simp only [List.length_append, hlen]; try omega⟩
        simp only [hitems, list_coe_append, Multiset.coe_singleton,
          ← Multiset.singleton_add]
        abel
      · refine Or.inr ⟨e, hr, List.mem_append.2 (Or.inr (by rw [hct]; simp)), ?_,
          by simp only [List.length_append, hlen, hct]; try omega⟩
        simp only [hitems, hct, list_coe_append, Multiset.coe_singleton,
          ← Multiset.cons_coe, ← Multiset.singleton_add]
        abel
  · cases hp : c.inq.item_push v with
    | none => rw [hp] at h; exact absurd h (by simp)
    | some w =>
      rcases w with ⟨r0, i2⟩
      rw [hp] at h
      rcases fifo.item_push_spec ⟨hin.1, hin.2.1, hin.2.2⟩ hp with
        ⟨hmax, hwf2, hvmem, hcase⟩
      cases r0 with
      | none =>
        simp only at h
        cases h
        rcases hcase with ⟨_, hitems, hlen⟩ | ⟨e, he, _⟩
        · refine ⟨⟨hwf2, hout, hmain⟩, hmax, rfl, rfl, Or.inl ⟨rfl, ?_, by
            simp only [twoq.entries, List.length_append, hlen]; omega⟩⟩
          unfold twoq.entries
          simp only [hitems, list_coe_append, Multiset.coe_singleton,
            ← Multiset.singleton_add]
          abel
        · exact absurd he (by simp)
      | some e =>
        simp only at h
        cases hq : c.out.item_push (e.1, 0) with
        | none => rw [hq] at h; exact absurd h (by simp)
        | some w2 =>
          rcases w2 with ⟨r2, o2⟩
          rw [hq] at h
          simp only at h
          cases h
          rcases fifo.item_push_spec ⟨hout.1, hout.2.1, hout.2.2⟩ hq with
            ⟨hmax2, hwf3, _, _⟩
          rcases hcase with ⟨hcon, _⟩ | ⟨e2, he2, hemem, hms, hlen⟩
          · exact absurd hcon (by simp)
          · have hee : e2 = e := by
              injection he2 with h1
              exact h1.symm
            subst hee
            refine ⟨⟨hwf2, hwf3, hmain⟩, hmax, hmax2, rfl,
              Or.inr ⟨e2, rfl, List.mem_append.2 (Or.inl hemem), ?_,
                by simp only [twoq.entries, List.length_append, hlen]; try omega⟩⟩
            unfold twoq.entries
            simp only [list_coe_append]
            calc (i2.items : Multiset (κ × ν)) + (c.main.items : Multiset (κ × ν)) + {e2}
                = ((i2.items : Multiset (κ × ν)) + {e2}) +
                    (c.main.items : Multiset (κ × ν)) := by abel
              _ = v ::ₘ (c.inq.items : Multiset (κ × ν)) +
                    (c.main.items : Multiset (κ × ν)) := by rw [hms]
              _ = v ::ₘ ((c.inq.items : Multiset (κ × ν)) +
                    (c.main.items : Multiset (κ × ν))) := by
                  rw [Multiset.cons_add]

end cache

theorem take_drop_page {α : Type} (l : List α) (a p c ps : Nat) (h : p + c ≤ ps) :
    (((l.drop a).take ps).drop p).take c = (l.drop (a + p)).take c := by
  rw [List.drop_take, List.take_take, Nat.min_eq_left (by omega), List.drop_drop]

theorem getD_set_self {α : Type} (l : List α) (n : Nat) (a d : α)
    (h : n < l.length) : (l.set n a).getD n d = a := by
  rw [List.getD_eq_getElem?_getD, List.getElem?_set_self h]
  rfl

theorem getD_set_ne {α : Type} (l : List α) (m n : Nat) (a d : α)
    (h : m ≠ n) : (l.set m a).getD n d = l.getD n d := by
  rw [List.getD_eq_getElem?_getD, List.getElem?_set_ne h, ← List.getD_eq_getElem?_getD]

namespace db_1c_8x

theorem PagesInv.pool_card {st : PagesState} (hInv : PagesInv st) :
    st.pool.length + st.queue.entries.length = st.cache_size + 1 := by
  have h := congrArg Multiset.card hInv.2.2.1
  simp only [Multiset.coe_card, List.length_append, List.length_map,
    List.length_range] at h
  exact h

theorem PagesInv.pool_ne_nil {st : PagesState} (hInv : PagesInv st) :
    st.pool ≠ [] := by
  have hcard := hInv.pool_card
  obtain ⟨⟨⟨hi1, _, _⟩, _, ⟨hm1, _⟩⟩, hsum, _⟩ := hInv
  have hent : st.queue.entries.length ≤ st.cache_size := by
    unfold cache.twoq.entries
    rw [List.length_append]
    omega
  intro hnil
  rw [hnil] at hcard
  simp at hcard
  omega

theorem PagesInv.slots_nodup {st : PagesState} (hInv : PagesInv st) :
    (st.pool ++ st.queue.entries.map Prod.snd).Nodup := by
  have hperm := Multiset.coe_eq_coe.1 hInv.2.2.1
  exact hperm.nodup_iff.2 (List.nodup_range _)

theorem PagesInv.slot_lt {st : PagesState} (hInv : PagesInv st) {s : Nat}
    (hs : s ∈ st.pool ++ st.queue.entries.map Prod.snd) :
    s < st.cache_size + 1 := by
  have hperm := Multiset.coe_eq_coe.1 hInv.2.2.1
  exact List.mem_range.1 (hperm.mem_iff.1 hs)

end db_1c_8x

namespace db_1c_8x

theorem pages.view_ok_spec {st : PagesState} {fread : Nat → Option (List Nat)}
    {i c p : Nat} {st2 : PagesState} {bs : List Nat}
    (hInv : PagesInv st) (hc64 : c < U64) (hp64 : p < U64)
    (h : pages.view st fread i c p = some (st2, Except.ok bs)) :
    PagesInv st2 ∧ st2.page_size = st.page_size ∧ st2.length = st.length ∧
      st2.cache_size = st.cache_size ∧ 1 ≤ i ∧ i < st.length ∧
      p < st.page_size ∧ p + c ≤ st.page_size ∧
      (∀ file, CacheGood st file →
        fread i = some ((file.drop (st.page_size * i)).take st.page_size) →
        CacheGood st2 file ∧ bs = (file.drop (st.page_size * i + p)).take c) := by
  have hwf : st.queue.WF := hInv.1
  have hps : st.page_size < U64 := hInv.2.2.2.2
  unfold pages.view at h
  by_cases hcond1 : i = 0 ∨ st.length ≤ i
  · rw [if_pos hcond1] at h; simp at h
  rw [if_neg hcond1] at h
  by_cases hcond2 : st.page_size ≤ p ∨ st.page_size < (p + c) % U64 ∨
      (p + c) % U64 < p
  · rw [if_pos hcond2] at h; simp at h
  rw [if_neg hcond2] at h
  push_neg at hcond1 hcond2
  have hpc : p + c ≤ st.page_size := by
    rcases hcond2 with ⟨h1, h2, h3⟩
    by_cases hlt : p + c < U64
    · rwa [Nat.mod_eq_of_lt hlt] at h2
    · exfalso
      have hw : (p + c) % U64 = p + c - U64 := by
        rw [Nat.mod_eq_sub_mod (by omega), Nat.mod_eq_of_lt (by omega)]
      omega
  have hi1 : 1 ≤ i := Nat.one_le_iff_ne_zero.2 hcond1.1
  have hil : i < st.length := hcond1.2
  have hpps : p < st.page_size := hcond2.1
  rcases hfind : st.queue.find i with ⟨vOpt, q2⟩
  rw [hfind] at h
  cases vOpt with
  | some slot =>
    simp only [Option.some.injEq, Prod.mk.injEq, Except.ok.injEq] at h
    obtain ⟨hst2, hbs⟩ := h
    rcases cache.twoq.find_eq_some hfind with
      ⟨hmem, hmseq, hlenq, hinq, hout, hmmax, hmlen⟩
    have hmap2 : ((q2.entries.map Prod.snd : List Nat) : Multiset Nat) =
        ((st.queue.entries.map Prod.snd : List Nat) : Multiset Nat) := by
      rw [← Multiset.map_coe, ← Multiset.map_coe, hmseq]
    have hInv2 : PagesInv st2 := by
      rw [← hst2]
      refine ⟨⟨?_, ?_, ?_⟩, ?_, ?_, hInv.2.2.2.1, hps⟩
      · rw [hinq]; exact hwf.1
      · rw [hout]; exact hwf.2.1
      · exact ⟨by rw [hmlen, hmmax]; exact hwf.2.2.1,
          by rw [hmmax]; exact hwf.2.2.2⟩
      · simp only
        rw [hinq, hmmax]
        exact hInv.2.1
      · simp only
        rw [list_coe_append, hmap2, ← list_coe_append]
        exact hInv.2.2.1
    refine ⟨hInv2, by rw [← hst2], by rw [← hst2], by rw [← hst2],
      hi1, hil, hpps, hpc, ?_⟩
    intro file hGood hread
    constructor
    · intro e he
      have he2 : e ∈ st.queue.entries := by
        have hm : e ∈ ((q2.entries : List (Nat × Nat)) : Multiset (Nat × Nat)) := by
          rw [← hst2] at he
          exact Multiset.mem_coe.2 he
        rw [hmseq] at hm
        exact Multiset.mem_coe.1 hm
      have := hGood e he2
      rw [← hst2]
      simpa using this
    · have hkey : st.data.getD slot [] =
          (file.drop (st.page_size * i)).take st.page_size := hGood (i, slot) hmem
      rw [← hbs, hkey, take_drop_page _ _ _ _ _ hpc]
  | none =>
    have hq2 : q2 = st.queue := cache.twoq.find_none_frozen hfind
    subst hq2
    simp only at h
    cases hlast : st.pool.getLast? with
    | none => rw [hlast] at h; simp at h
    | some slot =>
      rw [hlast] at h
      simp only at h
      cases hread : fread i with
      | none => rw [hread] at h; simp at h
      | some page =>
        rw [hread] at h
        simp only at h
        cases hpush : cache.twoq.push st.queue (i, slot) with
        | none => rw [hpush] at h; simp at h
        | some w =>
          rcases w with ⟨freed, q3⟩
          rw [hpush] at h
          simp only [Option.some.injEq, Prod.mk.injEq, Except.ok.injEq] at h
          obtain ⟨hst2, hbs⟩ := h
          rcases cache.twoq.push_spec hwf hpush with
            ⟨hwf3, hqmax1, hqmax2, hqmax3, hcase⟩
          obtain ⟨ys, hys⟩ := List.getLast?_eq_some_iff.1 hlast
          have hdropLast : st.pool.dropLast = ys := by
            rw [hys]; exact List.dropLast_concat
          have hslotpool : slot ∈ st.pool := by rw [hys]; simp
          have hslotlt : slot < st.data.length := by
            rw [hInv.2.2.2.1]
            exact hInv.slot_lt (List.mem_append.2 (Or.inl hslotpool))
          have hnodup := hInv.slots_nodup
          have hdisj : ∀ s ∈ st.queue.entries.map Prod.snd, s ≠ slot := by
            intro s hs hcontra
            rcases List.nodup_append.1 hnodup with ⟨_, _, hdisjoint⟩
            exact hdisjoint hslotpool (hcontra ▸ hs)
          have hpoolcoe : ((ys : List Nat) : Multiset Nat) + {slot} =
              ((st.pool : List Nat) : Multiset Nat) := by
            rw [hys, list_coe_append, Multiset.coe_singleton]
          have hsumq : q3.inq.max_size + q3.main.max_size = st.cache_size := by
            rw [hqmax1, hqmax3]; exact hInv.2.1
          rcases hcase with ⟨hfr, hms3, hlen3⟩ | ⟨e, hfr, hemem, hms3, hlen3⟩
          · subst hfr
            simp only at hst2
            have hmap3 : ((q3.entries.map Prod.snd : List Nat) : Multiset Nat) =
                slot ::ₘ ((st.queue.entries.map Prod.snd : List Nat) : Multiset Nat) := by
              rw [← Multiset.map_coe, ← Multiset.map_coe, hms3, Multiset.map_cons]
            have hInv2 : PagesInv st2 := by
              rw [← hst2]
              refine ⟨hwf3, hsumq, ?_, by simpa using hInv.2.2.2.1, hps⟩
              simp only [hdropLast]
              rw [list_coe_append, hmap3, ← Multiset.singleton_add,
                ← add_assoc, hpoolcoe, ← list_coe_append]
              exact hInv.2.2.1
            refine ⟨hInv2, by rw [← hst2], by rw [← hst2], by rw [← hst2],
              hi1, hil, hpps, hpc, ?_⟩
            intro file hGood hread2
            have hpage : page = (file.drop (st.page_size * i)).take st.page_size := by
              injection hread2
            constructor
            · intro e2 he2
              rw [← hst2] at he2
              simp only at he2
              have hm : e2 ∈ (i, slot) ::ₘ
                  ((st.queue.entries : List (Nat × Nat)) : Multiset (Nat × Nat)) := by
                rw [← hms3]
                exact Multiset.mem_coe.2 he2
              rw [← hst2]
              simp only
              rcases Multiset.mem_cons.1 hm with heq | hold
              · subst heq
                rw [getD_set_self _ _ _ _ hslotlt, hpage]
              · have hne : slot ≠ e2.2 :=
                  (hdisj _ (List.mem_map_of_mem _ (Multiset.mem_coe.1 hold))).symm
                rw [getD_set_ne _ _ _ _ _ hne]
                exact hGood e2 (Multiset.mem_coe.1 hold)
            · rw [← hbs, hpage, take_drop_page _ _ _ _ _ hpc]
          · subst hfr
            simp only at hst2
            have hmap3 : ((q3.entries.map Prod.snd : List Nat) : Multiset Nat) + {e.2} =
                slot ::ₘ ((st.queue.entries.map Prod.snd : List Nat) : Multiset Nat) := by
              have hmapped := congrArg (Multiset.map Prod.snd) hms3
              rw [Multiset.map_add, Multiset.map_singleton, Multiset.map_cons,
                Multiset.map_coe, Multiset.map_coe] at hmapped
              exact hmapped
            have hInv2 : PagesInv st2 := by
              rw [← hst2]
              refine ⟨hwf3, hsumq, ?_, by simpa using hInv.2.2.2.1, hps⟩
              simp only [hdropLast]
              rw [list_coe_append, list_coe_append, Multiset.coe_singleton]
              calc ((ys : List Nat) : Multiset Nat) + {e.2} +
                    ((q3.entries.map Prod.snd : List Nat) : Multiset Nat)
                  = ((ys : List Nat) : Multiset Nat) +
                    (((q3.entries.map Prod.snd : List Nat) : Multiset Nat) + {e.2}) := by
                    abel
                _ = ((ys : List Nat) : Multiset Nat) +
                    ({slot} + ((st.queue.entries.map Prod.snd : List Nat) : Multiset Nat)) := by
                    rw [hmap3, Multiset.singleton_add]
                _ = (((ys : List Nat) : Multiset Nat) + {slot}) +
                    ((st.queue.entries.map Prod.snd : List Nat) : Multiset Nat) := by
                    abel
                _ = ((st.pool : List Nat) : Multiset Nat) +
                    ((st.queue.entries.map Prod.snd : List Nat) : Multiset Nat) := by
                    rw [hpoolcoe]
                _ = (List.range (st.cache_size + 1) : Multiset Nat) := by
                    rw [← list_coe_append]
                    exact hInv.2.2.1
            refine ⟨hInv2, by rw [← hst2], by rw [← hst2], by rw [← hst2],
              hi1, hil, hpps, hpc, ?_⟩
            intro file hGood hread2
            have hpage : page = (file.drop (st.page_size * i)).take st.page_size := by
              injection hread2
            constructor
            · intro e2 he2
              rw [← hst2] at he2
              simp only at he2
              have hm : e2 ∈ (i, slot) ::ₘ
                  ((st.queue.entries : List (Nat × Nat)) : Multiset (Nat × Nat)) := by
                rw [← hms3]
                exact Multiset.mem_add.2 (Or.inl (Multiset.mem_coe.2 he2))
              rw [← hst2]
              simp only
              rcases Multiset.mem_cons.1 hm with heq | hold
              · subst heq
                rw [getD_set_self _ _ _ _ hslotlt, hpage]
              · have hne : slot ≠ e2.2 :=
                  (hdisj _ (List.mem_map_of_mem _ (Multiset.mem_coe.1 hold))).symm
                rw [getD_set_ne _ _ _ _ _ hne]
                exact hGood e2 (Multiset.mem_coe.1 hold)
            · rw [← hbs, hpage, take_drop_page _ _ _ _ _ hpc]

end db_1c_8x

namespace db_1c_8x

theorem pages.view_error_frozen {st : PagesState} {fread : Nat → Option (List Nat)}
    {i c p : Nat} {st2 : PagesState} {e : Unit}
    (h : pages.view st fread i c p = some (st2, Except.error e)) :
    st2 = st := by
  unfold pages.view at h
  by_cases hcond1 : i = 0 ∨ st.length ≤ i
  · rw [if_pos hcond1] at h
    simp only [Option.some.injEq, Prod.mk.injEq] at h
    exact h.1.symm
  rw [if_neg hcond1] at h
  by_cases hcond2 : st.page_size ≤ p ∨ st.page_size < (p + c) % U64 ∨
      (p + c) % U64 < p
  · rw [if_pos hcond2] at h
    simp only [Option.some.injEq, Prod.mk.injEq] at h
    exact h.1.symm
  rw [if_neg hcond2] at h
  rcases hfind : st.queue.find i with ⟨vOpt, q2⟩
  rw [hfind] at h
  cases vOpt with
  | some slot => simp at h
  | none =>
    have hq2 : q2 = st.queue := cache.twoq.find_none_frozen hfind
    subst hq2
    simp only at h
    cases hlast : st.pool.getLast? with
    | none => rw [hlast] at h; simp at h
    | some slot =>
      rw [hlast] at h
      simp only at h
      cases hread : fread i with
      | none =>
        rw [hread] at h
        simp only [Option.some.injEq, Prod.mk.injEq] at h
        rw [← h.1]
      | some page =>
        rw [hread] at h
        simp only at h
        cases hpush : cache.twoq.push st.queue (i, slot) with
        | none => rw [hpush] at h; simp at h
        | some w =>
          rcases w with ⟨freed, q3⟩
          rw [hpush] at h
          simp at h

theorem pages.view_conditions_ok {st : PagesState} {fread : Nat → Option (List Nat)}
    {i c p : Nat}
    (hInv : PagesInv st) (hread : (fread i).isSome)
    (hi1 : 1 ≤ i) (hil : i < st.length) (hp : p < st.page_size)
    (hpc : p + c ≤ st.page_size) :
    ∃ st2 bs, pages.view st fread i c p = some (st2, Except.ok bs) := by
  have hps := hInv.2.2.2.2
  have hmod : (p + c) % U64 = p + c := Nat.mod_eq_of_lt (by omega)
  rcases hfind : st.queue.find i with ⟨vOpt, q2⟩
  cases vOpt with
  | some slot =>
    refine ⟨{ st with queue := q2 }, ((st.data.getD slot []).drop p).take c, ?_⟩
    unfold pages.view
    rw [if_neg (by omega), if_neg (by rw [hmod]; omega), hfind]
  | none =>
    have hq2 : q2 = st.queue := cache.twoq.find_none_frozen hfind
    subst hq2
    obtain ⟨slot, hlast⟩ : ∃ s, st.pool.getLast? = some s := by
      cases hl : st.pool.getLast? with
      | none => exact absurd (List.getLast?_eq_none_iff.1 hl) hInv.pool_ne_nil
      | some s => exact ⟨s, rfl⟩
    obtain ⟨page, hpage⟩ := Option.isSome_iff_exists.1 hread
    obtain ⟨w, hpush⟩ :=
      Option.isSome_iff_exists.1 (cache.twoq.push_total (i, slot) hInv.1)
    rcases w with ⟨freed, q3⟩
    cases freed with
    | none =>
      refine ⟨{ st with data := st.data.set slot page, pool := st.pool.dropLast, queue := q3 }, (page.drop p).take c, ?_⟩
      unfold pages.view
      rw [if_neg (by omega), if_neg (by rw [hmod]; omega), hfind]
      simp only
      rw [hlast]
      simp only
      rw [hpage]
      simp only
      rw [hpush]
    | some e =>
      refine ⟨{ st with data := st.data.set slot page, pool := st.pool.dropLast ++ [e.2], queue := q3 }, (page.drop p).take c, ?_⟩
      unfold pages.view
      rw [if_neg (by omega), if_neg (by rw [hmod]; omega), hfind]
      simp only
      rw [hlast]
      simp only
      rw [hpage]
      simp only
      rw [hpush]

end db_1c_8x

namespace db_1c_8x

theorem pages.openedState_inv {ps len N : Nat} (hN : 4 ≤ N) (hps : ps < U64) :
    PagesInv (pages.openedState ps len N) := by
  have h4 : 1 ≤ N / 4 := (Nat.le_div_iff_mul_le (by omega)).2 (by omega)
  have h2 : 1 ≤ N / 2 := (Nat.le_div_iff_mul_le (by omega)).2 (by omega)
  have hlt : N / 4 < N := Nat.div_lt_self (by omega) (by omega)
  unfold pages.openedState cache.twoq.new cache.fifo.new cache.lru.new
  refine ⟨⟨⟨by simp, by simp, h4⟩, ⟨by simp, by simp, h2⟩,
      ⟨by simp, by show 1 ≤ N - N / 4; omega⟩⟩,
    Nat.add_sub_cancel' (Nat.div_le_self N 4), ?_, by simp, hps⟩
  simp [cache.twoq.entries]

theorem pages.openedState_good {ps len N : Nat} (file : List Nat) :
    CacheGood (pages.openedState ps len N) file := by
  intro e he
  simp [pages.openedState, cache.twoq.entries, cache.twoq.new, cache.fifo.new,
    cache.lru.new] at he

theorem pages.viewSeq_ok {file : List Nat} {ps len : Nat}
    (reqs : List (Nat × Nat × Nat)) :
    ∀ st : PagesState, PagesInv st → CacheGood st file →
      st.page_size = ps → st.length = len →
      (∀ r ∈ reqs, 1 ≤ r.1 ∧ r.1 < len ∧ r.2.2 < ps ∧ r.2.2 + r.2.1 ≤ ps) →
      ∃ st2, pages.viewSeq (pages.mkFread file ps) st reqs =
        some (st2, reqs.map (fun r => (file.drop (r.1 * ps + r.2.2)).take r.2.1)) := by
  induction reqs with
  | nil =>
    intro st _ _ _ _ _
    exact ⟨st, rfl⟩
  | cons r rest ih =>
    intro st hInv hGood hps hlen hreqs
    rcases r with ⟨i, c, p⟩
    obtain ⟨hre1, hre2, hre3, hre4⟩ := hreqs (i, c, p) (by simp)
    have hr1 : 1 ≤ i := hre1
    have hr2 : i < len := hre2
    have hr3 : p < ps := hre3
    have hr4 : p + c ≤ ps := hre4
    have hpsU : st.page_size < U64 := hInv.2.2.2.2
    have hc64 : c < U64 := by rw [hps] at hpsU; omega
    have hp64 : p < U64 := by rw [hps] at hpsU; omega
    have hread : ((pages.mkFread file ps) i).isSome := rfl
    obtain ⟨st2, bs, hview⟩ := pages.view_conditions_ok hInv hread hr1
      (by rw [hlen]; exact hr2) (by rw [hps]; exact hr3)
      (by rw [hps]; exact hr4)
    obtain ⟨hInv2, hps2, hlen2, hcs2, _, _, _, _, htrans⟩ :=
      pages.view_ok_spec hInv hc64 hp64 hview
    obtain ⟨hGood2, hbs⟩ := htrans file hGood (by rw [hps]; rfl)
    obtain ⟨st3, hseq⟩ := ih st2 hInv2 hGood2 (by rw [hps2, hps])
      (by rw [hlen2, hlen]) (fun rr hrr => hreqs rr (by simp [hrr]))
    refine ⟨st3, ?_⟩
    unfold pages.viewSeq
    rw [hview]
    simp only
    rw [hseq]
    simp only [List.map_cons]
    rw [hbs, hps, Nat.mul_comm ps i]

end db_1c_8x

namespace db_1c_8x

theorem pages.view_total {st : PagesState} (fread : Nat → Option (List Nat))
    (i c p : Nat) (hInv : PagesInv st) :
    (pages.view st fread i c p).isSome := by
  unfold pages.view
  by_cases hcond1 : i = 0 ∨ st.length ≤ i
  · rw [if_pos hcond1]; rfl
  rw [if_neg hcond1]
  by_cases hcond2 : st.page_size ≤ p ∨ st.page_size < (p + c) % U64 ∨
      (p + c) % U64 < p
  · rw [if_pos hcond2]; rfl
  rw [if_neg hcond2]
  rcases hfind : st.queue.find i with ⟨vOpt, q2⟩
  cases vOpt with
  | some slot => rfl
  | none =>
    have hq2 : q2 = st.queue := cache.twoq.find_none_frozen hfind
    subst hq2
    simp only
    obtain ⟨slot, hlast⟩ : ∃ s, st.pool.getLast? = some s := by
      cases hl : st.pool.getLast? with
      | none => exact absurd (List.getLast?_eq_none_iff.1 hl) hInv.pool_ne_nil
      | some s => exact ⟨s, rfl⟩
    rw [hlast]
    simp only
    cases hread : fread i with
    | none => rfl
    | some page =>
      simp only
      obtain ⟨w, hpush⟩ :=
        Option.isSome_iff_exists.1 (cache.twoq.push_total (i, slot) hInv.1)
      rcases w with ⟨freed, q3⟩
      rw [hpush]
      rfl

end db_1c_8x

namespace db_1c_8x

/-- Claim C1 counterexample: the claim quantifies over all request
sequences with `1 ≤ index < length` and `offset + count ≤ page_size`, and
asserts that every such call returns a pointer.  At `offset = page_size`,
`count = 0` those preconditions hold, yet `pages::view` throws
("Requested data interval to view exceeds page size", the `pos_ >=
db_hdr.page_size` test), so the call returns no pointer at all. -/
theorem pages_view_transparent_counterexample :
    (1 ≤ 1 ∧ 1 < (pages.openedState 8192 2 4).length ∧
      8192 + 0 ≤ (pages.openedState 8192 2 4).page_size) ∧
    pages.view (pages.openedState 8192 2 4)
        (pages.mkFread (List.replicate 16384 0) 8192) 1 0 8192 =
      some (pages.openedState 8192 2 4, Except.error ()) := by
  exact ⟨⟨Nat.le_refl 1, by decide, by decide⟩, rfl⟩

/-- Claim C1 (amended): on a valid opened database (cache capacity at least
4 so that every 2Q sub-cache can hold an item, page size a `size_t` value,
file of `length * page_size` bytes), for every sequence of
`view(index, count, offset)` calls with `1 ≤ index < length`,
`offset < page_size` and `offset + count ≤ page_size`, every call succeeds
and returns exactly the file's `count` bytes at position
`index * page_size + offset`, regardless of cache hits, misses and
evictions along the sequence. -/
theorem pages_view_sequence_transparent (file : List Nat) (ps len N : Nat)
    (reqs : List (Nat × Nat × Nat)) (hN : 4 ≤ N) (hps : ps < U64)
    (hfile : file.length = len * ps)
    (hreqs : ∀ r ∈ reqs,
      1 ≤ r.1 ∧ r.1 < len ∧ r.2.2 < ps ∧ r.2.2 + r.2.1 ≤ ps) :
    ∃ st2, pages.viewSeq (pages.mkFread file ps)
        (pages.openedState ps len N) reqs =
      some (st2, reqs.map (fun r => (file.drop (r.1 * ps + r.2.2)).take r.2.1)) :=
  pages.viewSeq_ok reqs _ (pages.openedState_inv hN hps)
    (pages.openedState_good file) rfl rfl hreqs

/-- Witness for the amended claim C1 at a concrete two-page database. -/
theorem pages_view_sequence_transparent_witness :
    ∃ st2, pages.viewSeq (pages.mkFread [3, 9] 1)
        (pages.openedState 1 2 4) [(1, 1, 0)] = some (st2, [[9]]) := by
  obtain ⟨st2, h⟩ := pages_view_sequence_transparent [3, 9] 1 2 4 [(1, 1, 0)]
    (by decide) (by decide) (by decide) (by decide)
  exact ⟨st2, by simpa using h⟩

/-- Claim C2: under the pages invariant, a `view` call that returns a value
keeps `|free pool| + |slots held by the 2Q queue| = cache_size + 1`, and a
`view` call that throws (including a failing file read) leaves the free
pool and the cache queue exactly as they were (the state is unchanged). -/
theorem pages_view_pool_invariant (st : PagesState)
    (fread : Nat → Option (List Nat)) (i c p : Nat) (st2 : PagesState)
    (r : Except Unit (List Nat)) (hInv : PagesInv st)
    (hc64 : c < U64) (hp64 : p < U64)
    (h : pages.view st fread i c p = some (st2, r)) :
    ((∃ bs, r = Except.ok bs) →
      st2.pool.length + st2.queue.entries.length = st.cache_size + 1) ∧
    ((∃ e, r = Except.error e) →
      st2.pool = st.pool ∧ st2.queue = st.queue) := by
  constructor
  · rintro ⟨bs, rfl⟩
    obtain ⟨hInv2, _, _, hcs, _⟩ := pages.view_ok_spec hInv hc64 hp64 h
    have hcard := hInv2.pool_card
    rw [hcs] at hcard
    exact hcard
  · rintro ⟨e, rfl⟩
    rw [pages.view_error_frozen h]
    exact ⟨rfl, rfl⟩

/-- Witness for claim C2: a concrete cache miss on a fresh two-page
database with cache capacity 4 (pool shrinks from 5 to 4 slots, queue grows
to one entry). -/
theorem pages_view_pool_invariant_witness :
    (({ page_size := 1, length := 2, cache_size := 4, pool := [0, 1, 2, 3], data := [[], [], [], [], [5]], queue := ⟨⟨1, [(1, 4)], 1⟩, ⟨2, [], 0⟩, ⟨3, []⟩⟩ } : PagesState)).pool.length +
      (({ page_size := 1, length := 2, cache_size := 4, pool := [0, 1, 2, 3], data := [[], [], [], [], [5]], queue := ⟨⟨1, [(1, 4)], 1⟩, ⟨2, [], 0⟩, ⟨3, []⟩⟩ } : PagesState)).queue.entries.length =
      (pages.openedState 1 2 4).cache_size + 1 := by
  exact (pages_view_pool_invariant (pages.openedState 1 2 4)
    (fun _ => some [5]) 1 1 0 _ _ (by decide) (by decide) (by decide) rfl).1
    ⟨[5], rfl⟩

/-- Claim C7 counterexample: the claim says `view` succeeds exactly when
`1 ≤ index < length` and `offset + count ≤ page_size` (sum without
overflow).  At `offset = page_size`, `count = 0` the right-hand side holds
but the code throws, because of the additional `pos_ >= db_hdr.page_size`
test. -/
theorem pages_view_success_counterexample :
    (1 ≤ 1 ∧ 1 < (pages.openedState 4096 2 4).length ∧
      4096 + 0 ≤ (pages.openedState 4096 2 4).page_size) ∧
    pages.view (pages.openedState 4096 2 4) (fun _ => some [7]) 1 0 4096 =
      some (pages.openedState 4096 2 4, Except.error ()) := by
  exact ⟨⟨Nat.le_refl 1, by decide, by decide⟩, rfl⟩

/-- Claim C7 (amended): on a readable database with a well-formed pages
state, `view(index, count, offset)` always returns (never hits undefined
behaviour), and it succeeds exactly when `1 ≤ index < length`,
`offset < page_size` and `offset + count ≤ page_size` with the sum
computed without `size_t` overflow; in every other case (`index = 0`,
`index ≥ length`, `offset ≥ page_size`, `offset + count > page_size`, or
an overflowing sum) it raises. -/
theorem pages_view_success_iff (st : PagesState)
    (fread : Nat → Option (List Nat)) (i c p : Nat) (hInv : PagesInv st)
    (hread : ∀ k, 1 ≤ k → k < st.length → (fread k).isSome)
    (hc64 : c < U64) (hp64 : p < U64) :
    (∃ out, pages.view st fread i c p = some out) ∧
    ((∃ st2 bs, pages.view st fread i c p = some (st2, Except.ok bs)) ↔
      (1 ≤ i ∧ i < st.length ∧ p < st.page_size ∧ p + c ≤ st.page_size)) := by
  refine ⟨Option.isSome_iff_exists.1 (pages.view_total fread i c p hInv), ?_, ?_⟩
  · rintro ⟨st2, bs, h⟩
    obtain ⟨_, _, _, _, h1, h2, h3, h4, _⟩ := pages.view_ok_spec hInv hc64 hp64 h
    exact ⟨h1, h2, h3, h4⟩
  · rintro ⟨h1, h2, h3, h4⟩
    exact pages.view_conditions_ok hInv (hread i h1 h2) h1 h2 h3 h4

/-- Witness for the amended claim C7: a concrete in-bounds view call on a
fresh database succeeds. -/
theorem pages_view_success_iff_witness :
    ∃ st2 bs, pages.view (pages.openedState 1 2 4) (fun _ => some [5]) 1 1 0 =
      some (st2, Except.ok bs) := by
  exact (pages_view_success_iff (pages.openedState 1 2 4) (fun _ => some [5])
    1 1 0 (by decide) (fun k _ _ => rfl) (by decide) (by decide)).2.2
    (by decide)

end db_1c_8x

namespace cache

variable {κ ν : Type} [DecidableEq κ]

theorem fifo.item_push_mem {c : fifo κ ν} {v : κ × ν} {r : Option (κ × ν)}
    {c2 : fifo κ ν} (h : c.item_push v = some (r, c2)) : v ∈ c2.items := by
  unfold fifo.item_push at h
  split at h
  · cases h
    simp
  · dsimp only at h
    split at h
    · exact absurd h (by simp)
    · rename_i prev hget
      cases h
      exact List.mem_set c.items _ (List.get?_eq_some.1 hget).1 v

theorem fifo.find_isSome_of_mem_keys {c : fifo κ ν} {k : κ}
    (hk : k ∈ c.keys) : (c.find k).isSome := by
  cases hfind : c.find k with
  | none => exact absurd hk (fifo.find_eq_none.1 hfind)
  | some v => rfl

theorem twoq.find_in_only {c : twoq κ ν} {k : κ} {v : ν}
    (hscan : lru.scan k c.main.items = none) (hfind : c.inq.find k = some v) :
    c.find k = (some v, c) := by
  unfold twoq.find lru.find
  rw [hscan]
  simp only
  rw [hfind]

theorem twoq.find_main_hit {c : twoq κ ν} {k : κ} {v : ν} {l2 : List (κ × ν)}
    (hscan : lru.scan k c.main.items = some (v, l2)) :
    c.find k = (some v, { c with main := { c.main with items := l2 } }) := by
  unfold twoq.find lru.find
  rw [hscan]

end cache

namespace cache

/-- Claim C3 counterexample: starting from a fresh capacity-8 2Q, push
keys 10, 11, 12 (12's first push wraps the `in` cursor and parks it over
the slot holding 12), then push `(12, 5)` — at that moment `12 ∉ out` and
`12 ∉ main`, the preconditions of the claim.  The push overwrites the slot
holding key 11, so `in` now holds the stale `(12, 1)` in front of the new
`(12, 5)`, and `find 12` returns 1, not the value 5 just pushed: the claim
needs the additional precondition `k ∉ in` (the source's documented
"always `find()` before `push()`" contract). -/
theorem twoq_find_after_push_counterexample :
    twoq.push (twoq.new 8 : twoq Nat Nat) (10, 0) =
      some (none, ⟨⟨2, [(10, 0)], 1⟩, ⟨4, [], 0⟩, ⟨6, []⟩⟩) ∧
    twoq.push (⟨⟨2, [(10, 0)], 1⟩, ⟨4, [], 0⟩, ⟨6, []⟩⟩ : twoq Nat Nat) (11, 2) =
      some (none, ⟨⟨2, [(10, 0), (11, 2)], 2⟩, ⟨4, [], 0⟩, ⟨6, []⟩⟩) ∧
    twoq.push (⟨⟨2, [(10, 0), (11, 2)], 2⟩, ⟨4, [], 0⟩, ⟨6, []⟩⟩ : twoq Nat Nat)
        (12, 1) = some (some (10, 0), twoqB3) ∧
    (12 ∉ twoqB3.out.keys ∧ 12 ∉ twoqB3.main.keys) ∧
    twoq.push twoqB3 (12, 5) = some (some (11, 2), twoqB4) ∧
    (twoq.find twoqB4 12).1 = some 1 ∧ (1 : Nat) ≠ 5 := by
  decide

/-- Claim C3 (amended): over any well-formed 2Q cache, (1) pushing `(k, v)`
with `k` absent from all of `in`, `out` and `main` lands in `in`, and
`find k` then returns `v` without modifying the cache (no promotion);
(2) when a push that went to `in` evicts a pair, the evicted key is
inserted into `out`; (3) pushing `(k, v2)` while `k ∈ out` and
`k ∉ main` inserts `(k, v2)` into `main` (leaving `in` and `out` alone),
after which `find k` reports `v2` from `main`. -/
theorem twoq_push_find_lifecycle {κ ν : Type} [DecidableEq κ] :
    (∀ (c : twoq κ ν) (k : κ) (v : ν),
      c.WF → k ∉ c.inq.keys → k ∉ c.out.keys → k ∉ c.main.keys →
      ∃ r c2, c.push (k, v) = some (r, c2) ∧ (k, v) ∈ c2.inq.items ∧
        c2.find k = (some v, c2)) ∧
    (∀ (c : twoq κ ν) (kv e : κ × ν) (c2 : twoq κ ν),
      (c.out.find kv.1).isSome = false →
      c.push kv = some (some e, c2) → e.1 ∈ c2.out.keys) ∧
    (∀ (c : twoq κ ν) (k : κ) (v2 : ν),
      c.main.WF → k ∈ c.out.keys → k ∉ c.main.keys →
      ∃ r m2, c.push (k, v2) = some (r, { c with main := m2 }) ∧
        (k, v2) ∈ m2.items ∧
        ∃ m3, m2.find k = (some v2, m3) ∧
          twoq.find { c with main := m2 } k = (some v2, { c with main := m3 })) := by
  refine ⟨?_, ?_, ?_⟩
  · intro c k v hwf hin hout hmain
    have houtf : c.out.find k = none := fifo.find_eq_none.2 hout
    obtain ⟨w, hpush⟩ :=
      Option.isSome_iff_exists.1 (fifo.item_push_total (k, v) hwf.1)
    rcases w with ⟨r0, i2⟩
    have hfindi2 : i2.find k = some v := fifo.push_fresh_find hwf.1 hpush hin
    have hmemi2 : (k, v) ∈ i2.items := fifo.item_push_mem hpush
    have hscan : lru.scan k c.main.items = none :=
      lru.scan_eq_none.2 (lru.not_mem_keys_iff.1 hmain)
    cases r0 with
    | none =>
      refine ⟨none, { c with inq := i2 }, ?_, hmemi2, ?_⟩
      · unfold twoq.push
        rw [if_neg (by simp [houtf]), hpush]
      · exact twoq.find_in_only (c := { c with inq := i2 }) hscan hfindi2
    | some e =>
      obtain ⟨w2, hpushout⟩ :=
        Option.isSome_iff_exists.1 (fifo.item_push_total (e.1, 0) hwf.2.1)
      rcases w2 with ⟨r2, o2⟩
      refine ⟨some e, { c with inq := i2, out := o2 }, ?_, hmemi2, ?_⟩
      · unfold twoq.push
        rw [if_neg (by simp [houtf]), hpush]
        simp only
        rw [hpushout]
      · exact twoq.find_in_only (c := { c with inq := i2, out := o2 }) hscan hfindi2
  · intro c kv e c2 hout hpush
    unfold twoq.push at hpush
    rw [if_neg (by simp [hout])] at hpush
    cases hp : c.inq.item_push kv with
    | none => rw [hp] at hpush; exact absurd hpush (by simp)
    | some w =>
      rcases w with ⟨r0, i2⟩
      rw [hp] at hpush
      cases r0 with
      | none => simp at hpush
      | some e2 =>
        simp only at hpush
        cases hq : c.out.item_push (e2.1, 0) with
        | none => rw [hq] at hpush; exact absurd hpush (by simp)
        | some w2 =>
          rcases w2 with ⟨r2, o2⟩
          rw [hq] at hpush
          simp only [Option.some.injEq, Prod.mk.injEq] at hpush
          obtain ⟨he, hc2⟩ := hpush
          have hmem := fifo.item_push_mem hq
          rw [← hc2]
          rw [← he]
          exact List.mem_map.2 ⟨(e2.1, 0), hmem, rfl⟩
  · intro c k v2 hmainwf hout hmain
    have houtf : (c.out.find k).isSome := fifo.find_isSome_of_mem_keys hout
    obtain ⟨w, hpush⟩ :=
      Option.isSome_iff_exists.1 (lru.item_push_isSome (k, v2) hmainwf)
    rcases w with ⟨r0, m2⟩
    have hall : ∀ q ∈ c.main.items, q.1 ≠ k := lru.not_mem_keys_iff.1 hmain
    rcases lru.item_push_cases hmainwf hpush with ⟨hmax, hwf2, hcase⟩
    obtain ⟨pre, hpre, hprekeys⟩ :
        ∃ pre, m2.items = pre ++ [(k, v2)] ∧ ∀ q ∈ pre, q.1 ≠ k := by
      rcases hcase with ⟨_, hitems, _⟩ | ⟨e, t, _, hct, hitems, _⟩
      · exact ⟨c.main.items, hitems, hall⟩
      · exact ⟨t, hitems, fun q hq => hall q (by rw [hct]; exact List.mem_cons_of_mem _ hq)⟩
    obtain ⟨l2, hscan⟩ := lru.scan_append_fresh (x := v2) hprekeys
    have hscan2 : lru.scan k m2.items = some (v2, l2) := by
      rw [hpre]; exact hscan
    refine ⟨r0, m2, ?_, by rw [hpre]; simp, ?_⟩
    · unfold twoq.push
      rw [if_pos houtf, hpush]
    · refine ⟨{ m2 with items := l2 }, ?_, ?_⟩
      · unfold lru.find
        rw [hscan2]
      · exact twoq.find_main_hit (c := { c with main := m2 }) hscan2

/-- Witness for the amended claim C3, at concrete capacity-8 caches:
a fresh push is found in `in`; the eviction of key 10 lands in `out`;
a push whose key sits in `out` lands in `main` and is reported from
there. -/
theorem twoq_push_find_lifecycle_witness :
    (∃ r c2, twoq.push (twoq.new 8 : twoq Nat Nat) (10, 3) = some (r, c2) ∧
      (10, 3) ∈ c2.inq.items ∧ c2.find 10 = (some 3, c2)) ∧
    ((10 : Nat) ∈ twoqB3.out.keys) ∧
    (∃ r m2, twoq.push twoqB4 (10, 7) = some (r, { twoqB4 with main := m2 }) ∧
      (10, 7) ∈ m2.items ∧
      ∃ m3, m2.find 10 = (some 7, m3) ∧
        twoq.find { twoqB4 with main := m2 } 10 = (some 7, { twoqB4 with main := m3 })) := by
  refine ⟨?_, ?_, ?_⟩
  · exact twoq_push_find_lifecycle.1 (twoq.new 8) 10 3 (by decide) (by decide)
      (by decide) (by decide)
  · exact twoq_push_find_lifecycle.2.1
      (⟨⟨2, [(10, 0), (11, 2)], 2⟩, ⟨4, [], 0⟩, ⟨6, []⟩⟩ : twoq Nat Nat)
      (12, 1) (10, 0) twoqB3 (by decide) (by decide)
  · exact twoq_push_find_lifecycle.2.2 twoqB4 10 7 (by decide) (by decide)
      (by decide)

end cache

namespace cache

/-- Claim C9: the `twoq` constructor sizes `in` to `N / 4`; for `N < 4`
that FIFO has capacity 0 (violating the `assert(size_ >= 1)` documented
requirement of `fifo`), and the first push into it reaches the unguarded
overwrite of an empty backing vector — undefined behaviour, `none` in this
model; for `N ≥ 4` all three sub-caches have capacity at least 1, and on
well-formed states `push` always returns (and preserves well-formedness),
as do `find` and `clear`. -/
theorem twoq_capacity_precondition {κ ν : Type} [DecidableEq κ] :
    (∀ N : Nat, (twoq.new N : twoq κ ν).inq.max_size = N / 4) ∧
    (∀ (N : Nat) (kv : κ × ν), N < 4 → twoq.push (twoq.new N) kv = none) ∧
    (∀ N : Nat, 4 ≤ N →
      (1 ≤ (twoq.new N : twoq κ ν).inq.max_size ∧
        1 ≤ (twoq.new N : twoq κ ν).out.max_size ∧
        1 ≤ (twoq.new N : twoq κ ν).main.max_size) ∧
      (twoq.new N : twoq κ ν).WF) ∧
    (∀ (c : twoq κ ν) (kv : κ × ν), c.WF →
      ∃ r c2, c.push kv = some (r, c2) ∧ c2.WF) ∧
    (∀ (c : twoq κ ν) (k : κ), c.WF → ((c.find k).2).WF) ∧
    (∀ c : twoq κ ν, c.WF → c.clear.WF) := by
  refine ⟨fun N => rfl, ?_, ?_, ?_, ?_, ?_⟩
  · intro N kv hN
    have h0 : N / 4 = 0 := Nat.div_eq_of_lt hN
    have hfind : ((twoq.new N : twoq κ ν).out.find kv.1) = none := rfl
    unfold twoq.push
    rw [if_neg (by simp [hfind])]
    show (match (fifo.new (N / 4) : fifo κ ν).item_push kv with
      | none => none
      | some (none, i2) => some (none, { (twoq.new N : twoq κ ν) with inq := i2 })
      | some (some e, i2) =>
        match (twoq.new N : twoq κ ν).out.item_push (e.1, 0) with
        | none => none
        | some (_, o2) =>
          some (some e, { (twoq.new N : twoq κ ν) with inq := i2, out := o2 })) = none
    rw [h0]
    rfl
  · intro N hN
    have h4 : 1 ≤ N / 4 := (Nat.le_div_iff_mul_le (by omega)).2 (by omega)
    have h2 : 1 ≤ N / 2 := (Nat.le_div_iff_mul_le (by omega)).2 (by omega)
    have hlt : N / 4 < N := Nat.div_lt_self (by omega) (by omega)
    exact ⟨⟨h4, h2, by show 1 ≤ N - N / 4; omega⟩,
      ⟨Nat.zero_le _, Nat.le_refl 0, h4⟩,
      ⟨Nat.zero_le _, Nat.le_refl 0, h2⟩,
      ⟨Nat.zero_le _, by show 1 ≤ N - N / 4; omega⟩⟩
  · intro c kv hwf
    obtain ⟨w, hpush⟩ := Option.isSome_iff_exists.1 (twoq.push_total kv hwf)
    rcases w with ⟨r, c2⟩
    exact ⟨r, c2, hpush, (twoq.push_spec hwf hpush).1⟩
  · intro c k hwf
    rcases hf : c.find k with ⟨vOpt, c2⟩
    cases vOpt with
    | none =>
      have : c2 = c := twoq.find_none_frozen hf
      simpa [this] using hwf
    | some v =>
      rcases twoq.find_eq_some hf with ⟨_, _, _, hinq, hout, hmmax, hmlen⟩
      exact ⟨by rw [hinq]; exact hwf.1, by rw [hout]; exact hwf.2.1,
        ⟨by rw [hmlen, hmmax]; exact hwf.2.2.1, by rw [hmmax]; exact hwf.2.2.2⟩⟩
  · intro c hwf
    exact ⟨⟨Nat.zero_le _, Nat.le_refl 0, hwf.1.2.2⟩,
      ⟨Nat.zero_le _, Nat.le_refl 0, hwf.2.1.2.2⟩,
      ⟨Nat.zero_le _, hwf.2.2.2⟩⟩

/-- Witness for claim C9: with capacity 3 the very first push is undefined
behaviour; with capacity 4 every sub-cache can hold an item; a push on a
concrete well-formed reachable state returns and preserves
well-formedness. -/
theorem twoq_capacity_precondition_witness :
    twoq.push (twoq.new 3 : twoq Nat Nat) (1, 1) = none ∧
    (twoq.new 4 : twoq Nat Nat).WF ∧
    ∃ r c2, twoq.push twoqB3 (42, 0) = some (r, c2) ∧ c2.WF := by
  refine ⟨twoq_capacity_precondition.2.1 3 (1, 1) (by decide),
    (twoq_capacity_precondition.2.2.1 4 (by decide)).2,
    twoq_capacity_precondition.2.2.2.1 twoqB3 (42, 0) (by decide)⟩

end cache

namespace db_1c_8x

theorem field.type_size_eq_amended (t : field.ftype) (l : Nat)
    (h : t ≠ field.ftype.unknown) :
    field.type_size t l = some (amended_slot_width t l) := by
  cases t <;> first | rfl | exact absurd rfl h

theorem records.prepare_go_spec (params : List field.fparams) (shift : Nat)
    (h : ∀ p ∈ params, p.type ≠ field.ftype.unknown) :
    ∃ hs, records.prepare_go params shift = Except.ok (hs, shift +
      (params.map (fun p => (if p.null_exists then 1 else 0) +
        amended_slot_width p.type p.length)).sum) := by
  induction params generalizing shift with
  | nil => exact ⟨[], by simp [records.prepare_go]⟩
  | cons p rest ih =>
    have hts := field.type_size_eq_amended p.type p.length (h p (by simp))
    obtain ⟨hs, hrest⟩ := ih
      (shift + ((if p.null_exists then 1 else 0) + amended_slot_width p.type p.length))
      (fun q hq => h q (by simp [hq]))
    refine ⟨⟨p, shift, (if p.null_exists then 1 else 0) +
      amended_slot_width p.type p.length⟩ :: hs, ?_⟩
    unfold records.prepare_go
    rw [hts]
    simp only
    rw [hrest]
    simp only [List.map_cons, List.sum_cons]
    rw [Nat.add_assoc]

/-- Claim C4 counterexample: for a single non-nullable `digit` column of
declared length 9, `field::digit::size` computes the slot as the *integer*
division `(9 + 2) / 2 = 5`, so the stride is `1 + 5 = 6`; the claim's
table says `⌈(9 + 2) / 2⌉ = 6`, giving a stride of `7`. -/
theorem record_stride_digit_counterexample :
    records.record_stride [⟨"D", field.ftype.digit, false, 9, 0, false⟩] =
      Except.ok 6 ∧
    claim_record_stride [⟨"D", field.ftype.digit, false, 9, 0, false⟩] = 7 ∧
    (6 : Nat) ≠ 7 :=
  ⟨rfl, rfl, by decide⟩

/-- Claim C4 (amended): for every schema whose column types are all known
and whose column count fits the `field::index_type` limit, the record
stride equals 1 (tombstone byte) plus, for each column in order, one byte
when the column is nullable plus the type's fixed slot width from the §4.6
table with the digit width read as the integer (floor) division
`(length + 2) / 2`, the result padded up to a minimum of `1 + 4 = 5`
bytes. -/
theorem record_stride_formula (params : List field.fparams)
    (h1 : ∀ p ∈ params, p.type ≠ field.ftype.unknown)
    (h2 : params.length ≤ 4294967295) :
    records.record_stride params = Except.ok (amended_record_stride params) := by
  obtain ⟨hs, hgo⟩ := records.prepare_go_spec params 1 h1
  unfold records.record_stride records.prepare_fields
  rw [if_neg (by omega), hgo]
  rfl

/-- Witness for the amended claim C4: a nullable digit(9) column plus a
boolean column gives stride `1 + (1 + 5) + 1 = 8`. -/
theorem record_stride_formula_witness :
    records.record_stride [⟨"A", field.ftype.digit, true, 9, 0, false⟩,
      ⟨"B", field.ftype.boolean, false, 0, 0, false⟩] = Except.ok 8 :=
  (record_stride_formula
    [⟨"A", field.ftype.digit, true, 9, 0, false⟩,
      ⟨"B", field.ftype.boolean, false, 0, 0, false⟩]
    (by decide) (by decide)).trans rfl

end db_1c_8x

theorem size_check_iff (fsize ps len : Nat) (hps : 0 < ps) :
    (fsize % ps ≠ 0 ∨ fsize / ps ≠ len ∨ len = 0) ↔
      (fsize ≠ len * ps ∨ len = 0) := by
  constructor
  · rintro (h | h | h)
    · left
      intro he
      exact h (by rw [he]; exact Nat.mul_mod_left len ps)
    · by_cases hlen : len = 0
      · exact Or.inr hlen
      · left
        intro he
        exact h (by rw [he]; exact Nat.mul_div_cancel len hps)
    · exact Or.inr h
  · rintro (h | h)
    · by_cases hm : fsize % ps = 0
      · refine Or.inr (Or.inl ?_)
        intro hd
        exact h (by rw [← hd]; exact (Nat.div_mul_cancel (Nat.dvd_of_mod_eq_zero hm)).symm)
      · exact Or.inl hm
    · exact Or.inr (Or.inr h)

namespace db_1c_8x

theorem pages.open_checked_ne_version (hdr1 : DbHdr) (fsize : Nat) :
    pages.open_checked hdr1 fsize ≠ Except.error pages.errors.version := by
  unfold pages.open_checked
  split_ifs with h1 h2
  · intro hc
    injection hc with hc2
    exact absurd hc2 (by decide)
  · intro hc
    injection hc with hc2
    exact absurd hc2 (by decide)
  · intro hc
    exact Except.noConfusion hc

theorem pages.open_checked_ok {hdr1 : DbHdr} {fsize : Nat} {h2 : DbHdr}
    (h : pages.open_checked hdr1 fsize = Except.ok h2) : h2 = hdr1 := by
  unfold pages.open_checked at h
  split_ifs at h
  injection h with hh
  exact hh.symm

theorem pages.open_checked_badsize (hdr1 : DbHdr) (fsize : Nat)
    (hnew : hdr1.version ≠ 0x000E0208)
    (hbad : hdr1.page_size ≠ 4096 ∧ hdr1.page_size ≠ 8192 ∧
      hdr1.page_size ≠ 16384 ∧ hdr1.page_size ≠ 32768 ∧
      hdr1.page_size ≠ 65536) :
    pages.open_checked hdr1 fsize = Except.error pages.errors.bad_file := by
  unfold pages.open_checked
  rw [if_pos ⟨hnew, hbad⟩]

theorem pages.open_checked_size_iff (hdr1 : DbHdr) (fsize : Nat)
    (hskip : ¬(hdr1.version ≠ 0x000E0208 ∧
      hdr1.page_size ≠ 4096 ∧ hdr1.page_size ≠ 8192 ∧
      hdr1.page_size ≠ 16384 ∧ hdr1.page_size ≠ 32768 ∧
      hdr1.page_size ≠ 65536))
    (hps0 : 0 < hdr1.page_size) :
    (pages.open_checked hdr1 fsize = Except.error pages.errors.bad_file ↔
      (fsize ≠ hdr1.length * hdr1.page_size ∨ hdr1.length = 0)) := by
  unfold pages.open_checked
  rw [if_neg hskip]
  by_cases hsz : fsize % hdr1.page_size ≠ 0 ∨
      fsize / hdr1.page_size ≠ hdr1.length ∨ hdr1.length = 0
  · rw [if_pos hsz]
    exact ⟨fun _ => (size_check_iff fsize hdr1.page_size hdr1.length hps0).1 hsz,
      fun _ => rfl⟩
  · rw [if_neg hsz]
    constructor
    · intro hcon
      exact Except.noConfusion hcon
    · intro hcon
      exact absurd ((size_check_iff fsize hdr1.page_size hdr1.length hps0).2 hcon) hsz

/-- Claim C5: `pages::open` reports through its typed error and never
throws (in this model it is a total function into `Except`); it returns
`version` exactly when the signature matches `"1CDBMSV8"` and the version
is neither `0x000E0208` nor `0x00080308`; for version `0x000E0208` any
success carries the forced page size 4096; for version `0x00080308` a page
size outside {4096, 8192, 16384, 32768, 65536} yields `bad_file`; and with
valid signature, version and page size, `bad_file` is returned exactly
when the file size differs from `length * page_size` (with the effective,
possibly forced, page size) or `length = 0`. -/
theorem pages_open_classification (hdr : DbHdr) (fsize : Nat) :
    (pages.open_ (some (hdr, fsize)) = Except.error pages.errors.version ↔
      (hdr.sig = SIG ∧ hdr.version ≠ 0x000E0208 ∧ hdr.version ≠ 0x00080308)) ∧
    (∀ h2, pages.open_ (some (hdr, fsize)) = Except.ok h2 →
      hdr.version = 0x000E0208 → h2.page_size = 4096) ∧
    (hdr.sig = SIG → hdr.version = 0x00080308 →
      (hdr.page_size ≠ 4096 ∧ hdr.page_size ≠ 8192 ∧ hdr.page_size ≠ 16384 ∧
        hdr.page_size ≠ 32768 ∧ hdr.page_size ≠ 65536) →
      pages.open_ (some (hdr, fsize)) = Except.error pages.errors.bad_file) ∧
    (hdr.sig = SIG →
      (hdr.version = 0x000E0208 ∨ hdr.version = 0x00080308) →
      (hdr.version = 0x00080308 →
        (hdr.page_size = 4096 ∨ hdr.page_size = 8192 ∨ hdr.page_size = 16384 ∨
          hdr.page_size = 32768 ∨ hdr.page_size = 65536)) →
      (pages.open_ (some (hdr, fsize)) = Except.error pages.errors.bad_file ↔
        (fsize ≠ hdr.length *
            (if hdr.version = 0x000E0208 then 4096 else hdr.page_size) ∨
          hdr.length = 0))) := by
  unfold pages.open_
  simp only
  by_cases hsig : hdr.sig = SIG
  · rw [if_neg (fun hc => hc hsig)]
    by_cases hver : hdr.version ≠ 0x000E0208 ∧ hdr.version ≠ 0x00080308
    · rw [if_pos hver]
      refine ⟨⟨fun _ => ⟨hsig, hver.1, hver.2⟩, fun _ => rfl⟩, ?_, ?_, ?_⟩
      · intro h2 hok _
        exact Except.noConfusion hok
      · intro _ hnew _
        exact absurd hnew hver.2
      · intro _ hor _
        rcases hor with hold | hnew
        · exact absurd hold hver.1
        · exact absurd hnew hver.2
    · rw [if_neg hver]
      by_cases hold : hdr.version = 0x000E0208
      · rw [if_pos hold]
        have hskip : ¬(({ hdr with page_size := 4096 } : DbHdr).version ≠ 0x000E0208 ∧
            ({ hdr with page_size := 4096 } : DbHdr).page_size ≠ 4096 ∧
            ({ hdr with page_size := 4096 } : DbHdr).page_size ≠ 8192 ∧
            ({ hdr with page_size := 4096 } : DbHdr).page_size ≠ 16384 ∧
            ({ hdr with page_size := 4096 } : DbHdr).page_size ≠ 32768 ∧
            ({ hdr with page_size := 4096 } : DbHdr).page_size ≠ 65536) :=
          fun hc => hc.1 hold
        refine ⟨?_, ?_, ?_, ?_⟩
        · constructor
          · intro hcon
            exact absurd hcon (pages.open_checked_ne_version _ fsize)
          · rintro ⟨_, hcon, _⟩
            exact absurd hold hcon
        · intro h2 hok _
          have := pages.open_checked_ok hok
          rw [this]
        · intro _ hnew _
          exact absurd hold (by rw [hnew]; decide)
        · intro _ _ _
          rw [if_pos hold]
          have hiff := pages.open_checked_size_iff ({ hdr with page_size := 4096 })
            fsize hskip (by show (0 : Nat) < 4096; omega)
          exact hiff
      · have hnew : hdr.version = 0x00080308 := by
          rcases Decidable.em (hdr.version = 0x00080308) with h | h
          · exact h
          · exact absurd ⟨hold, h⟩ hver
        rw [if_neg hold]
        refine ⟨?_, ?_, ?_, ?_⟩
        · constructor
          · intro hcon
            exact absurd hcon (pages.open_checked_ne_version _ fsize)
          · rintro ⟨_, _, hcon⟩
            exact absurd hnew hcon
        · intro h2 hok holdcon
          exact absurd holdcon hold
        · intro _ _ hbad
          exact pages.open_checked_badsize hdr fsize hold hbad
        · intro _ _ hvalid
          have hmem := hvalid hnew
          have hskip : ¬(hdr.version ≠ 0x000E0208 ∧
              hdr.page_size ≠ 4096 ∧ hdr.page_size ≠ 8192 ∧
              hdr.page_size ≠ 16384 ∧ hdr.page_size ≠ 32768 ∧
              hdr.page_size ≠ 65536) := by
            rintro ⟨_, hc⟩
            rcases hmem with h | h | h | h | h
            · exact hc.1 h
            · exact hc.2.1 h
            · exact hc.2.2.1 h
            · exact hc.2.2.2.1 h
            · exact hc.2.2.2.2 h
          have hps0 : 0 < hdr.page_size := by
            rcases hmem with h | h | h | h | h <;> omega
          rw [if_neg hold]
          exact pages.open_checked_size_iff hdr fsize hskip hps0
  · rw [if_pos hsig]
    refine ⟨?_, ?_, ?_, ?_⟩
    · constructor
      · intro hcon
        injection hcon with hc2
        exact absurd hc2 (by decide)
      · rintro ⟨hs, _⟩
        exact absurd hs hsig
    · intro h2 hok _
      exact Except.noConfusion hok
    · intro hs
      exact absurd hs hsig
    · intro hs
      exact absurd hs hsig

/-- Witness for claim C5 at concrete headers: a new-revision header with
page size 5000 is `bad_file`; a garbage version is `version`; an
old-revision header opened over a 2-page file succeeds with page size
forced to 4096. -/
theorem pages_open_classification_witness :
    pages.open_ (some (⟨SIG, 0x00080308, 2, 0, 5000⟩, 10000)) =
      Except.error pages.errors.bad_file ∧
    pages.open_ (some (⟨SIG, 0, 2, 0, 4096⟩, 8192)) =
      Except.error pages.errors.version ∧
    (∀ h2, pages.open_ (some (⟨SIG, 0x000E0208, 2, 0, 12345⟩, 8192)) =
      Except.ok h2 → h2.page_size = 4096) := by
  refine ⟨?_, ?_, ?_⟩
  · exact (pages_open_classification ⟨SIG, 0x00080308, 2, 0, 5000⟩ 10000).2.2.1
      rfl rfl (by decide)
  · exact (pages_open_classification ⟨SIG, 0, 2, 0, 4096⟩ 8192).1.2
      ⟨rfl, by decide, by decide⟩
  · intro h2 hok
    exact (pages_open_classification ⟨SIG, 0x000E0208, 2, 0, 12345⟩ 8192).2.1
      h2 hok rfl

end db_1c_8x

namespace db_1c_8x

theorem blob.chainTerm_succ (blocks : List blob.blob_blk) (f index : Nat) :
    blob.chainTerm blocks (f + 1) index =
      match blocks.get? index with
      | none => false
      | some blk =>
        decide (blk.nextblock = 0) || blob.chainTerm blocks f blk.nextblock := rfl

theorem blob.getBody_inr {blocks : List blob.blob_blk} {sz index : Nat}
    {acc : List Nat} {next : Nat} {acc2 : List Nat}
    (h : blob.getBody blocks sz index acc = Sum.inr (next, acc2)) :
    ∃ blk, blocks.get? index = some blk ∧ blk.nextblock = next ∧ next ≠ 0 := by
  unfold blob.getBody at h
  cases hget : blocks.get? index with
  | none => rw [hget] at h; exact absurd h (by simp)
  | some blk =>
    rw [hget] at h
    simp only at h
    split_ifs at h with h1 h2 h3
    injection h with hh
    injection hh with h5 h6
    exact ⟨blk, rfl, h5, by rw [← h5]; exact h3⟩

theorem blob.getBody_ok {blocks : List blob.blob_blk} {sz index : Nat}
    {acc : List Nat} {bs : List Nat}
    (h : blob.getBody blocks sz index acc = Sum.inl (Except.ok bs)) :
    ∃ blk, blocks.get? index = some blk ∧ blk.nextblock = 0 := by
  unfold blob.getBody at h
  cases hget : blocks.get? index with
  | none => rw [hget] at h; simp at h
  | some blk =>
    rw [hget] at h
    simp only at h
    split_ifs at h with h1 h2 h3 h4 <;>
      first
        | exact ⟨blk, rfl, h3⟩
        | simp at h

theorem blob.getLoop_steps (blocks : List blob.blob_blk) (sz : Nat) :
    ∀ fuel index acc, (blob.getLoop blocks sz fuel index acc).2 ≤ max fuel 1 := by
  intro fuel
  induction fuel with
  | zero =>
    intro index acc
    unfold blob.getLoop
    cases hb : blob.getBody blocks sz index acc with
    | inl r => simp
    | inr w => rcases w with ⟨next, acc2⟩; simp
  | succ f ih =>
    intro index acc
    unfold blob.getLoop
    cases hb : blob.getBody blocks sz index acc with
    | inl r => simp
    | inr w =>
      rcases w with ⟨next, acc2⟩
      simp only
      by_cases hf : f = 0
      · rw [if_pos hf]
        simp
      · rw [if_neg hf]
        have hih := ih next acc2
        have hm : max f 1 = f := Nat.max_eq_left (by omega)
        rw [hm] at hih
        have hm2 : max (f + 1) 1 = f + 1 := Nat.max_eq_left (by omega)
        rw [hm2]
        simp only
        omega

theorem blob.getLoop_ok_chainTerm (blocks : List blob.blob_blk) (sz : Nat) :
    ∀ fuel index acc bs, 1 ≤ fuel →
      (blob.getLoop blocks sz fuel index acc).1 = Except.ok bs →
      blob.chainTerm blocks fuel index = true := by
  intro fuel
  induction fuel with
  | zero => intro index acc bs hcon; omega
  | succ f ih =>
    intro index acc bs _ hok
    unfold blob.getLoop at hok
    cases hb : blob.getBody blocks sz index acc with
    | inl r =>
      rw [hb] at hok
      simp only at hok
      subst hok
      obtain ⟨blk, hget, hnext⟩ := blob.getBody_ok hb
      rw [blob.chainTerm_succ, hget]
      simp [hnext]
    | inr w =>
      rcases w with ⟨next, acc2⟩
      rw [hb] at hok
      simp only at hok
      by_cases hf : f = 0
      · rw [if_pos hf] at hok
        exact absurd hok (by simp)
      · rw [if_neg hf] at hok
        simp only at hok
        obtain ⟨blk, hget, hnb, _⟩ := blob.getBody_inr hb
        have hterm := ih next acc2 bs (by omega) hok
        rw [blob.chainTerm_succ, hget]
        simp only
        rw [hnb]
        simp [hterm]

theorem blob.getLoop_no_term_loop (blocks : List blob.blob_blk)
    (hvalid : ∀ blk ∈ blocks, blk.length ≤ 250 ∧
      (blk.length = 0 → blk.nextblock = 0) ∧ blk.nextblock < blocks.length) :
    ∀ fuel index acc, 1 ≤ fuel → index < blocks.length →
      blob.chainTerm blocks fuel index = false →
      (blob.getLoop blocks 0 fuel index acc).1 =
        Except.error blob.err.loop_detected := by
  intro fuel
  induction fuel with
  | zero => intro index acc hcon; omega
  | succ f ih =>
    intro index acc _ hidx hterm
    obtain ⟨blk, hget⟩ : ∃ blk, blocks.get? index = some blk := by
      cases hg : blocks.get? index with
      | none =>
        rw [List.get?_eq_getElem?, List.getElem?_eq_none_iff] at hg
        omega
      | some blk => exact ⟨blk, rfl⟩
    have hv := hvalid blk (List.get?_mem hget)
    have hterm2 : blk.nextblock ≠ 0 ∧
        blob.chainTerm blocks f blk.nextblock = false := by
      unfold blob.chainTerm at hterm
      rw [hget] at hterm
      simpa using hterm
    have hbody : blob.getBody blocks 0 index acc =
        Sum.inr (blk.nextblock, acc ++ blk.data.take blk.length) := by
      unfold blob.getBody
      rw [hget]
      simp only
      rw [if_neg ?hlen]
      case hlen =>
        rintro (hc | ⟨h0, hn⟩)
        · omega
        · exact hn (hv.2.1 h0)
      rw [if_neg (by simp)]
      rw [if_neg hterm2.1]
    unfold blob.getLoop
    rw [hbody]
    simp only
    by_cases hf : f = 0
    · rw [if_pos hf]
    · rw [if_neg hf]
      simp only
      exact ih blk.nextblock (acc ++ blk.data.take blk.length) (by omega)
        hv.2.2 hterm2.2

/-- Claim C6: for a blob object holding at least one 256-byte block and a
non-zero start index, `blob::get` performs at most `block_count` loop
iterations; if it returns the accumulated bytes, the `nextblock` chain from
the start index reaches a terminating block (`nextblock = 0`) within
`block_count` steps; and on any chain of well-formed blocks that never
terminates (in particular any cyclic `nextblock` chain) the call raises
the loop-detection error instead of looping forever. -/
theorem blob_get_loop_bound (blocks : List blob.blob_blk) (index sz : Nat)
    (hne : blocks ≠ []) :
    (blob.get blocks index sz).2 ≤ blocks.length ∧
    (∀ bs, (blob.get blocks index sz).1 = Except.ok bs →
      blob.chainTerm blocks blocks.length index = true) ∧
    ((∀ blk ∈ blocks, blk.length ≤ 250 ∧ (blk.length = 0 → blk.nextblock = 0) ∧
        blk.nextblock < blocks.length) →
      index ≠ 0 → index < blocks.length → sz = 0 →
      blob.chainTerm blocks blocks.length index = false →
      (blob.get blocks index sz).1 = Except.error blob.err.loop_detected) := by
  have hlen1 : 1 ≤ blocks.length := by
    cases blocks with
    | nil => exact absurd rfl hne
    | cons b t => simp
  refine ⟨?_, ?_, ?_⟩
  · unfold blob.get
    split
    · simp
    · have := blob.getLoop_steps blocks sz blocks.length index []
      rwa [Nat.max_eq_left hlen1] at this
  · intro bs hok
    unfold blob.get at hok
    split at hok
    · exact absurd hok (by simp)
    · exact blob.getLoop_ok_chainTerm blocks sz blocks.length index [] bs hlen1 hok
  · intro hvalid hi0 hidx hsz hterm
    unfold blob.get
    rw [if_neg hi0]
    subst hsz
    exact blob.getLoop_no_term_loop blocks hvalid blocks.length index [] hlen1
      hidx hterm

/-- Witness for claim C6: on the three-block object whose blocks 1 and 2
link to each other, `get(1)` raises the loop-detection error after at most
3 iterations. -/
theorem blob_get_loop_bound_witness :
    (blob.get cycBlocks 1 0).1 = Except.error blob.err.loop_detected ∧
    (blob.get cycBlocks 1 0).2 ≤ 3 := by
  refine ⟨(blob_get_loop_bound cycBlocks 1 0 (by decide)).2.2 (by decide)
    (by decide) (by decide) rfl (by decide), ?_⟩
  have h := (blob_get_loop_bound cycBlocks 1 0 (by decide)).1
  simpa using h

end db_1c_8x

namespace db_1c_8x

/-- Claim C8 counterexample: the claim says use-before-seek is an
assert-grade programmer error that is *not* reported through the
user-visible error channel, but on a fresh cursor both `is_deleted` and
`get_field` throw the single runtime exception kind with the message
"Attempting to access a table entry before reading it." (the source flags
the check with `/// assert() ?` yet ships a `throw`). -/
theorem records_use_before_seek_counterexample :
    records.is_deleted recsFresh = Except.error records.use_before_seek_msg ∧
    records.get_field recsFresh field.ftype.boolean 0 =
      Except.error records.use_before_seek_msg :=
  ⟨rfl, rfl⟩

/-- Claim C8 (amended): calling `is_deleted()` or `get_field()` on a
cursor with no successful prior seek raises the ordinary user-visible
exception (the single runtime exception kind), with the message
"Attempting to access a table entry before reading it.", for every
requested field type and index. -/
theorem records_use_before_seek_raises (st : records.RecState)
    (h : st.last_index = none) :
    records.is_deleted st = Except.error records.use_before_seek_msg ∧
    ∀ (t : field.ftype) (i : Nat),
      records.get_field st t i = Except.error records.use_before_seek_msg := by
  constructor
  · unfold records.is_deleted
    rw [h]
    rfl
  · intro t i
    unfold records.get_field
    rw [h]
    rfl

/-- Witness for the amended claim C8 at a concrete unseeked cursor. -/
theorem records_use_before_seek_raises_witness :
    records.is_deleted ⟨[], [7], 1, none⟩ =
      Except.error records.use_before_seek_msg ∧
    records.get_field ⟨[], [7], 1, none⟩ field.ftype.digit 5 =
      Except.error records.use_before_seek_msg := by
  have h := records_use_before_seek_raises ⟨[], [7], 1, none⟩ rfl
  exact ⟨h.1, h.2 field.ftype.digit 5⟩

/-- Claim C10: `decompress` applied to an empty input buffer returns an
empty output buffer without raising (the `src_.size() == 0` early return,
taken even though an empty input is not a terminated DEFLATE stream), for
every inflate collaborator and size limit; and the "Data flow ended before
it was decompressed" error can only be produced for a non-empty input. -/
theorem decompress_empty_input :
    (∀ (z : blob_base.zlib) (maxSize : Nat),
      blob_base.decompress z [] maxSize = Except.ok []) ∧
    (∀ (z : blob_base.zlib) (src : List Nat) (maxSize : Nat),
      blob_base.decompress z src maxSize =
        Except.error blob_base.derr.premature_end →
      src ≠ []) := by
  constructor
  · intro z maxSize
    rfl
  · intro z src maxSize h hnil
    subst hnil
    have hok : blob_base.decompress z [] maxSize = Except.ok [] := rfl
    rw [hok] at h
    exact Except.noConfusion h

/-- Witness for claim C10: the empty input returns an empty buffer; a
stalling inflate collaborator drives a non-empty input into the
premature-end error, and the claim's theorem confirms that input is
non-empty. -/
theorem decompress_empty_input_witness :
    blob_base.decompress zlibStall [] 5 = Except.ok [] ∧
    blob_base.decompress zlibStall [1] 100 =
      Except.error blob_base.derr.premature_end ∧
    ([1] : List Nat) ≠ [] := by
  refine ⟨decompress_empty_input.1 zlibStall 5, rfl, ?_⟩
  exact decompress_empty_input.2 zlibStall [1] 100 rfl

end db_1c_8x
